import Mathlib

/-!
Shallow embedding of the `fsm` repository (src/fsm.rs and src/fsm_parser.rs):
a textual DFA description is parsed into a `ParsedFSM`, validated into an
`FSM`, and simulated over an input string.

Modelling conventions:
* Rust `String` / `&str` values are modelled as `List Char`.
* Rust `HashSet` values are modelled as `List` with the set's insertion
  discipline made explicit: `insert` keeps the already-present element when
  an equal one (under the Rust `PartialEq` of the element type) exists, and
  appends otherwise.  Iteration over a `HashSet` is modelled as iteration in
  insertion order; the Rust iteration order is unspecified, which only
  influences which of several simultaneous validation errors is reported.
* A Rust panic (`.expect`) is modelled as `Option.none`.
-/

set_option autoImplicit false

namespace Fsm

/-- `String.data` shorthand for writing character lists. -/
def chars (s : String) : List Char := s.data

/-- Parser output for one declared state (fsm_parser.rs, `ParsedState`). -/
inductive ParsedState where
| state (name : List Char)
| acceptState (name : List Char)
deriving DecidableEq

/-- The name carried by a declared state. -/
def ParsedState.pname : ParsedState → List Char
| .state n => n
| .acceptState n => n

/-- Parser output for one declared transition (fsm_parser.rs, `ParsedTransition`). -/
structure ParsedTransition where
  input : Char
  start_state : List Char
  end_state : List Char
deriving DecidableEq

/-- Parser output for the whole specification (fsm_parser.rs, `ParsedFSM`). -/
structure ParsedFSM where
  start_state : List Char
  states : List ParsedState
  transitions : List ParsedTransition
deriving DecidableEq

/-- Validator-side state (fsm.rs, `State`): a name tagged plain or accepting. -/
inductive State where
| state (name : List Char)
| acceptState (name : List Char)
deriving DecidableEq

/-- fsm.rs `State::get_name`. -/
def State.get_name : State → List Char
| .state n => n
| .acceptState n => n

/-- The Rust `PartialEq for State`: equality compares the names only, the
accepting tag is ignored. -/
def stateEq (a b : State) : Bool := a.get_name == b.get_name

/-- fsm.rs `Transition`: a resolved transition entry. -/
structure Transition where
  input : Char
  start_state : State
  end_state : State
deriving DecidableEq

/-- The Rust `PartialEq for Transition`: equality compares only the input
symbol and the start state (the latter by name, via `stateEq`). -/
def transEq (a b : Transition) : Bool :=
  a.input == b.input && stateEq a.start_state b.start_state

/-- `HashSet<State>::insert`: keeps the stored element when a `stateEq`-equal
one is already present, appends otherwise. -/
def insertState (s : List State) (x : State) : List State :=
  if s.any (fun y => stateEq y x) then s else s ++ [x]

/-- `HashSet<Transition>::insert`: keeps the stored element when a
`transEq`-equal one is already present, appends otherwise. -/
def insertTransition (s : List Transition) (x : Transition) : List Transition :=
  if s.any (fun y => transEq y x) then s else s ++ [x]

/-- `HashSet<Transition>::get`: the stored element `transEq`-equal to the
probe, if any. -/
def getTransition (s : List Transition) (x : Transition) : Option Transition :=
  s.find? (fun y => transEq y x)

/-- `HashSet<char>::insert`. -/
def insertChar (s : List Char) (c : Char) : List Char :=
  if s.any (fun y => y == c) then s else s ++ [c]

/-- The input alphabet accumulated by `validate_parsed_fsm` (fsm.rs lines
153-156): the set of symbols appearing across the declared transitions. -/
def alphabetOf (ts : List ParsedTransition) : List Char :=
  ts.foldl (fun acc t => insertChar acc t.input) []

/-- fsm.rs `FSM`: the validated automaton. -/
structure FSM where
  start_state : State
  transitions : List Transition
  input_alphabet : List Char
deriving DecidableEq

/-- fsm.rs `FSMError`. -/
inductive FSMError where
| MissingTransition (c : Char) (s : State)
| ExtraTransition (a b : ParsedTransition)
| UnknownState (name : List Char)
| NoStartState
| CharNotInInputAlphabet (c : Char)
deriving DecidableEq

instance {ε α : Type} [DecidableEq ε] [DecidableEq α] : DecidableEq (Except ε α) :=
fun a b =>
  match a, b with
  | .ok x, .ok y => decidable_of_iff (x = y) (by simp)
  | .error x, .error y => decidable_of_iff (x = y) (by simp)
  | .ok _, .error _ => isFalse (by simp)
  | .error _, .ok _ => isFalse (by simp)

/-- The loop body of fsm.rs `FSM::run`, walking the remaining input from the
current state.  The probe handed to `HashSet::get` carries the dummy end
state `State::State("")`, exactly as in the source; `none` models the panic
of the `.expect` when the lookup misses. -/
def runFrom (fsm : FSM) : State → List Char → Option (Except FSMError Bool)
| cur, [] =>
  some (.ok (match cur with
             | .state _ => false
             | .acceptState _ => true))
| cur, c :: rest =>
  if fsm.input_alphabet.any (fun y => y == c) then
    match getTransition fsm.transitions ⟨c, cur, .state []⟩ with
    | some t => runFrom fsm t.end_state rest
    | none => none
  else
    some (.error (.CharNotInInputAlphabet c))

/-- fsm.rs `FSM::run` (lines 82-103). -/
def FSM.run (fsm : FSM) (input : List Char) : Option (Except FSMError Bool) :=
  runFrom fsm fsm.start_state input

/-- The first loop of `validate_parsed_fsm` (fsm.rs lines 136-151): build the
state set and resolve the start state.  The set keeps the first declaration
of each name (`HashSet::insert` does not replace), while the start-state
slot is overwritten by each declaration whose name matches, so the last one
wins. -/
def resolveStates (decls : List ParsedState) (startName : List Char) :
    Option State × List State :=
  decls.foldl
    (fun acc st =>
      match st with
      | .state n =>
        ((if n == startName then some (State.state n) else acc.1),
         insertState acc.2 (State.state n))
      | .acceptState n =>
        ((if n == startName then some (State.acceptState n) else acc.1),
         insertState acc.2 (State.acceptState n)))
    (none, [])

/-- The filter inside the cross-product sweep (fsm.rs lines 160-164): the
declared transitions matching one (symbol, state) pair, in declaration
order. -/
def findMatches (ts : List ParsedTransition) (c : Char) (s : State) :
    List ParsedTransition :=
  ts.filter (fun t => t.input == c && t.start_state == s.get_name)

/-- End-state resolution (fsm.rs lines 174-181): the first stored state whose
name equals the given name. -/
def resolveEnd (states : List State) (name : List Char) : Option State :=
  states.find? (fun s => s.get_name == name)

/-- The inner loop of the cross-product sweep for a fixed symbol (fsm.rs
lines 159-199): walk the states, and for each one classify the matching
declarations (0 / 1 / ≥2) exactly as the `match found.len()` does. -/
def sweepState (states : List State) (ts : List ParsedTransition) (c : Char) :
    List State → List Transition → Except FSMError (List Transition)
| [], acc => .ok acc
| s :: rest, acc =>
  match findMatches ts c s with
  | [] => .error (.MissingTransition c s)
  | [t] =>
    match resolveEnd states t.end_state with
    | some e => sweepState states ts c rest (insertTransition acc ⟨c, s, e⟩)
    | none => .error (.UnknownState t.end_state)
  | t1 :: t2 :: _ => .error (.ExtraTransition t1 t2)

/-- The outer loop of the cross-product sweep (fsm.rs lines 158-200). -/
def sweep (states : List State) (ts : List ParsedTransition) :
    List Char → List Transition → Except FSMError (List Transition)
| [], acc => .ok acc
| c :: cs, acc =>
  match sweepState states ts c states acc with
  | .ok acc2 => sweep states ts cs acc2
  | .error e => .error e

/-- fsm.rs `validate_parsed_fsm` (lines 131-211): resolve the states and the
start state, derive the alphabet, run the totality/determinism sweep, and
only then check that a start state was found. -/
def validate_parsed_fsm (p : ParsedFSM) : Except FSMError FSM :=
  let r := resolveStates p.states p.start_state
  let alphabet := alphabetOf p.transitions
  match sweep r.2 p.transitions alphabet [] with
  | .error e => .error e
  | .ok trs =>
    match r.1 with
    | some s => .ok ⟨s, trs, alphabet⟩
    | none => .error .NoStartState

/-- `ParsedState` carried over to the validator side, preserving the tag.
This is what each arm of the first validator loop inserts. -/
def ParsedState.toState : ParsedState → State
| .state n => State.state n
| .acceptState n => State.acceptState n

/-- The number of entries of a transition set carrying the key
(symbol `c`, state `s`), key equality being the Rust `PartialEq` of
`Transition` (symbol equality plus name-only state equality). -/
def keyCount (ts : List Transition) (c : Char) (s : State) : Nat :=
  (ts.filter (fun t => t.input == c && stateEq t.start_state s)).length

/-- The last declared state with the given name, i.e. the declaration whose
tag the start-state slot of the first validator loop ends up carrying. -/
def lastMatch (decls : List ParsedState) (n : List Char) : Option ParsedState :=
  decls.foldl (fun a d => if d.pname == n then some d else a) none

theorem toState_name (d : ParsedState) : d.toState.get_name = d.pname := by
  cases d <;> rfl

theorem stateEq_iff (a b : State) :
    stateEq a b = true ↔ a.get_name = b.get_name := by
  simp [stateEq]

theorem stateEq_refl (a : State) : stateEq a a = true := by
  simp [stateEq]

theorem keyCount_nil (c : Char) (s : State) : keyCount [] c s = 0 := rfl

theorem keyCount_append (l₁ l₂ : List Transition) (c : Char) (s : State) :
    keyCount (l₁ ++ l₂) c s = keyCount l₁ c s + keyCount l₂ c s := by
  simp [keyCount, List.filter_append]

theorem keyCount_singleton (x : Transition) (c : Char) (s : State) :
    keyCount [x] c s = if x.input = c ∧ x.start_state.get_name = s.get_name
      then 1 else 0 := by
  rcases hb : (x.input == c && stateEq x.start_state s) with _ | _
  · rw [if_neg]
    · simp [keyCount, List.filter_cons, hb]
    · simp [stateEq] at hb
      tauto
  · rw [if_pos]
    · simp [keyCount, List.filter_cons, hb]
    · simp [stateEq] at hb
      tauto

theorem keyCount_congr (ts : List Transition) (c : Char) {s s' : State}
    (h : s.get_name = s'.get_name) : keyCount ts c s = keyCount ts c s' := by
  simp only [keyCount, stateEq, h]

theorem keyCount_eq_zero_iff (ts : List Transition) (c : Char) (s : State) :
    keyCount ts c s = 0 ↔
      ∀ t ∈ ts, ¬(t.input = c ∧ t.start_state.get_name = s.get_name) := by
  simp [keyCount, List.length_eq_zero, List.filter_eq_nil_iff, stateEq]

theorem insertTransition_any (acc : List Transition) (x : Transition) :
    (acc.any (fun y => transEq y x) = false) ↔
      keyCount acc x.input x.start_state = 0 := by
  simp [transEq, keyCount_eq_zero_iff, stateEq]

theorem insertTransition_of_fresh (acc : List Transition) (x : Transition)
    (h : keyCount acc x.input x.start_state = 0) :
    insertTransition acc x = acc ++ [x] := by
  rw [insertTransition, if_neg]
  rw [← insertTransition_any] at h
  simp [h]

theorem getTransition_eq_some_of_pos (ts : List Transition) (c : Char)
    (s : State) (e : State) (h : keyCount ts c s ≠ 0) :
    ∃ t, getTransition ts ⟨c, s, e⟩ = some t ∧ t ∈ ts ∧
      t.input = c ∧ t.start_state.get_name = s.get_name := by
  rw [Ne, keyCount_eq_zero_iff] at h
  push_neg at h
  obtain ⟨t, ht, hti, htn⟩ := h
  have hsome : (ts.find? (fun y => transEq y (⟨c, s, e⟩ : Transition))).isSome := by
    rw [List.find?_isSome]
    exact ⟨t, ht, by simp [transEq, stateEq, hti, htn]⟩
  obtain ⟨t', ht'⟩ := Option.isSome_iff_exists.mp hsome
  have hpred := List.find?_some ht'
  simp only [transEq, stateEq, Bool.and_eq_true, beq_iff_eq] at hpred
  exact ⟨t', ht', List.mem_of_find?_eq_some ht', hpred.1, hpred.2⟩

theorem sweepState_spec (states : List State) (ts : List ParsedTransition)
    (c : Char) (slist : List State) :
    ∀ (acc acc2 : List Transition),
    List.Pairwise (fun a b => a.get_name ≠ b.get_name) slist →
    (∀ s ∈ slist, keyCount acc c s = 0) →
    sweepState states ts c slist acc = .ok acc2 →
    (∀ s ∈ slist, keyCount acc2 c s = 1) ∧
    (∀ c' s', (c' ≠ c ∨ ∀ s ∈ slist, s'.get_name ≠ s.get_name) →
      keyCount acc2 c' s' = keyCount acc c' s') ∧
    (∀ t ∈ acc2, t ∈ acc ∨
      (t.input = c ∧ t.start_state ∈ slist ∧ t.end_state ∈ states)) := by
  induction slist with
  | nil =>
    intro acc acc2 _ _ hok
    simp only [sweepState, Except.ok.injEq] at hok
    subst hok
    exact ⟨by simp, fun c' s' _ => rfl, fun t ht => Or.inl ht⟩
  | cons s rest ih =>
    intro acc acc2 hpw hzero hok
    obtain ⟨hhead, htail⟩ := List.pairwise_cons.mp hpw
    simp only [sweepState] at hok
    rcases hfm : findMatches ts c s with _ | ⟨t, tl⟩
    · rw [hfm] at hok
      simp at hok
    rcases tl with _ | ⟨t2, more⟩
    · rw [hfm] at hok
      simp only at hok
      rcases hre : resolveEnd states t.end_state with _ | e
      · rw [hre] at hok
        simp at hok
      rw [hre] at hok
      simp only at hok
      have hfresh : keyCount acc c s = 0 := hzero s (by simp)
      have hins : insertTransition acc ⟨c, s, e⟩ = acc ++ [⟨c, s, e⟩] :=
        insertTransition_of_fresh acc ⟨c, s, e⟩ hfresh
      rw [hins] at hok
      have hzero2 : ∀ s' ∈ rest, keyCount (acc ++ [⟨c, s, e⟩]) c s' = 0 := by
        intro s' hs'
        rw [keyCount_append, hzero s' (by simp [hs']), keyCount_singleton]
        simp only [Nat.zero_add]
        rw [if_neg]
        rintro ⟨-, hn⟩
        exact hhead s' hs' hn
      obtain ⟨ih1, ih2, ih3⟩ := ih (acc ++ [⟨c, s, e⟩]) acc2 htail hzero2 hok
      refine ⟨?_, ?_, ?_⟩
      · intro s0 hs0
        rcases List.mem_cons.mp hs0 with h | h
        · subst h
          rw [ih2 c s0 (Or.inr (fun s'' hs'' => hhead s'' hs''))]
          rw [keyCount_append, hfresh, keyCount_singleton]
          simp
        · exact ih1 s0 h
      · intro c' s' hcond
        have hcond2 : c' ≠ c ∨ ∀ s0 ∈ rest, s'.get_name ≠ s0.get_name := by
          rcases hcond with h | h
          · exact Or.inl h
          · exact Or.inr (fun s0 hs0 => h s0 (by simp [hs0]))
        rw [ih2 c' s' hcond2, keyCount_append, keyCount_singleton]
        rw [if_neg]
        · simp
        · rintro ⟨hc, hn⟩
          rcases hcond with h | h
          · exact h (hc.symm ▸ rfl)
          · exact h s (by simp) hn.symm
      · intro t0 ht0
        rcases ih3 t0 ht0 with h | h
        · rcases List.mem_append.mp h with h2 | h2
          · exact Or.inl h2
          · simp only [List.mem_singleton] at h2
            subst h2
            exact Or.inr ⟨rfl, by simp, List.mem_of_find?_eq_some hre⟩
        · exact Or.inr ⟨h.1, by simp [h.2.1], h.2.2⟩
    · rw [hfm] at hok
      simp at hok

theorem sweep_spec (states : List State) (ts : List ParsedTransition)
    (cs : List Char) :
    ∀ (acc acc2 : List Transition),
    cs.Nodup →
    List.Pairwise (fun a b => a.get_name ≠ b.get_name) states →
    (∀ c ∈ cs, ∀ s', keyCount acc c s' = 0) →
    sweep states ts cs acc = .ok acc2 →
    (∀ c ∈ cs, ∀ s ∈ states, keyCount acc2 c s = 1) ∧
    (∀ c' s', c' ∉ cs → keyCount acc2 c' s' = keyCount acc c' s') ∧
    (∀ t ∈ acc2, t ∈ acc ∨
      (t.input ∈ cs ∧ t.start_state ∈ states ∧ t.end_state ∈ states)) := by
  induction cs with
  | nil =>
    intro acc acc2 _ _ _ hok
    simp only [sweep, Except.ok.injEq] at hok
    subst hok
    exact ⟨by simp, fun c' s' _ => rfl, fun t ht => Or.inl ht⟩
  | cons c cs ih =>
    intro acc acc2 hnd hpw hzero hok
    have hcnotin : c ∉ cs := (List.nodup_cons.mp hnd).1
    have hndtail : cs.Nodup := (List.nodup_cons.mp hnd).2
    simp only [sweep] at hok
    rcases hss : sweepState states ts c states acc with e | acc3
    · rw [hss] at hok
      simp at hok
    rw [hss] at hok
    simp only at hok
    obtain ⟨i1, i2, i3⟩ := sweepState_spec states ts c states acc acc3 hpw
      (fun s _ => hzero c (by simp) s) hss
    have hzero2 : ∀ c' ∈ cs, ∀ s', keyCount acc3 c' s' = 0 := by
      intro c' hc' s'
      rw [i2 c' s' (Or.inl (fun hcc => hcnotin (hcc ▸ hc')))]
      exact hzero c' (by simp [hc']) s'
    obtain ⟨j1, j2, j3⟩ := ih acc3 acc2 hndtail hpw hzero2 hok
    refine ⟨?_, ?_, ?_⟩
    · intro c0 hc0 s hs
      rcases List.mem_cons.mp hc0 with h | h
      · subst h
        rw [j2 c0 s hcnotin]
        exact i1 s hs
      · exact j1 c0 h s hs
    · intro c' s' hc'
      have h1 : c' ∉ cs := fun h => hc' (by simp [h])
      have h2 : c' ≠ c := fun h => hc' (by simp [h])
      rw [j2 c' s' h1]
      exact i2 c' s' (Or.inl h2)
    · intro t ht
      rcases j3 t ht with h | h
      · rcases i3 t h with h2 | h2
        · exact Or.inl h2
        · exact Or.inr ⟨by simp [h2.1], h2.2.1, h2.2.2⟩
      · exact Or.inr ⟨by simp [h.1], h.2.1, h.2.2⟩

/-- The loop body of the first validator loop, written uniformly in the
declared state (each Rust match arm does exactly this for its own tag). -/
def rsStep (n : List Char) (a : Option State × List State) (d : ParsedState) :
    Option State × List State :=
  ((if d.pname == n then some d.toState else a.1), insertState a.2 d.toState)

theorem resolveStates_eq_foldl (decls : List ParsedState) (n : List Char) :
    resolveStates decls n = decls.foldl (rsStep n) (none, []) := by
  unfold resolveStates
  congr 1
  funext a d
  cases d <;> rfl

theorem insertState_any (l : List State) (x : State) :
    (l.any (fun y => stateEq y x) = true) ↔ ∃ m ∈ l, m.get_name = x.get_name := by
  simp [stateEq]

theorem insertState_pairwise (l : List State) (x : State)
    (h : List.Pairwise (fun a b => a.get_name ≠ b.get_name) l) :
    List.Pairwise (fun a b => a.get_name ≠ b.get_name) (insertState l x) := by
  unfold insertState
  rcases ha : l.any (fun y => stateEq y x) with _ | _
  · rw [if_neg Bool.false_ne_true]
    rw [List.pairwise_append]
    refine ⟨h, by simp, ?_⟩
    intro a hal b hbx
    simp only [List.mem_singleton] at hbx
    subst hbx
    intro hn
    have h2 : ∃ m ∈ l, m.get_name = b.get_name := ⟨a, hal, hn⟩
    rw [← insertState_any] at h2
    rw [ha] at h2
    exact Bool.false_ne_true h2
  · rw [if_pos rfl]
    exact h

theorem insertState_names (l : List State) (x : State) (nm : List Char) :
    (∃ m ∈ insertState l x, m.get_name = nm) ↔
      (∃ m ∈ l, m.get_name = nm) ∨ x.get_name = nm := by
  unfold insertState
  rcases ha : l.any (fun y => stateEq y x) with _ | _
  · rw [if_neg Bool.false_ne_true]
    constructor
    · rintro ⟨m, hm, hnm⟩
      rcases List.mem_append.mp hm with h | h
      · exact Or.inl ⟨m, h, hnm⟩
      · simp only [List.mem_singleton] at h
        subst h
        exact Or.inr hnm
    · rintro (⟨m, hm, hnm⟩ | hx)
      · exact ⟨m, List.mem_append.mpr (Or.inl hm), hnm⟩
      · exact ⟨x, List.mem_append.mpr (Or.inr (by simp)), hx⟩
  · rw [if_pos rfl]
    constructor
    · exact Or.inl
    · rintro (h | hx)
      · exact h
      · obtain ⟨m, hm, hmn⟩ := (insertState_any l x).mp ha
        exact ⟨m, hm, hmn.trans hx⟩

theorem resolveEnd_isSome_of_mem (l : List State) (m : State) (nm : List Char)
    (hm : m ∈ l) (hn : m.get_name = nm) : (resolveEnd l nm).isSome := by
  unfold resolveEnd
  rw [List.find?_isSome]
  exact ⟨m, hm, by simp [hn]⟩

theorem resolveEnd_append_single (l : List State) (x : State) (nm : List Char) :
    resolveEnd (l ++ [x]) nm =
      (resolveEnd l nm).elim (if x.get_name == nm then some x else none) some := by
  induction l with
  | nil =>
    rcases hx : (x.get_name == nm) with _ | _ <;>
      simp [resolveEnd, List.find?, hx]
  | cons y l ih =>
    simp only [resolveEnd, List.cons_append, List.find?] at *
    rcases hy : (y.get_name == nm) with _ | _
    · simpa [hy] using ih
    · simp [hy]

theorem resolveEnd_insertState (l : List State) (x : State) (nm : List Char) :
    resolveEnd (insertState l x) nm =
      (resolveEnd l nm).elim (if x.get_name == nm then some x else none) some := by
  unfold insertState
  rcases ha : l.any (fun y => stateEq y x) with _ | _
  · rw [if_neg Bool.false_ne_true]
    exact resolveEnd_append_single l x nm
  · rw [if_pos rfl]
    rcases hre : resolveEnd l nm with _ | m
    · rcases hb : (x.get_name == nm) with _ | _
      · simp [hre, hb]
      · obtain ⟨m, hm, hmn⟩ := (insertState_any l x).mp ha
        have h2 := resolveEnd_isSome_of_mem l m nm hm (hmn.trans (beq_iff_eq.mp hb))
        rw [hre] at h2
        simp at h2
    · simp [hre]

theorem lmFold_init (n : List Char) (ds : List ParsedState) :
    ∀ (a : Option ParsedState),
    ds.foldl (fun a d => if d.pname == n then some d else a) a =
      (lastMatch ds n).elim a some := by
  induction ds with
  | nil => intro a; rfl
  | cons d ds ih =>
    intro a
    simp only [List.foldl_cons]
    rw [ih]
    have h2 : lastMatch (d :: ds) n =
        (lastMatch ds n).elim (if d.pname == n then some d else none) some := ih _
    rw [h2]
    rcases lastMatch ds n with _ | x
    · rcases hd : (d.pname == n) with _ | _ <;> simp [hd]
    · simp

theorem lastMatch_cons (n : List Char) (d : ParsedState) (ds : List ParsedState) :
    lastMatch (d :: ds) n =
      (lastMatch ds n).elim (if d.pname == n then some d else none) some :=
  lmFold_init n ds _

theorem lastMatch_spec (n : List Char) (ds : List ParsedState) :
    ∀ d, lastMatch ds n = some d → d ∈ ds ∧ d.pname = n := by
  induction ds with
  | nil => intro d h; exact absurd h (by simp [lastMatch])
  | cons d0 ds ih =>
    intro d h
    rw [lastMatch_cons] at h
    rcases hlm : lastMatch ds n with _ | x
    · rw [hlm] at h
      rcases hd : (d0.pname == n) with _ | _
      · rw [hd] at h
        simp at h
      · rw [hd] at h
        simp only [Option.elim, if_true, eq_self_iff_true, Option.some.injEq] at h
        have hdd : d = d0 := h.symm
        subst hdd
        exact ⟨by simp, beq_iff_eq.mp hd⟩
    · rw [hlm] at h
      simp only [Option.elim, Option.some.injEq] at h
      subst h
      obtain ⟨hm, hn⟩ := ih x hlm
      exact ⟨by simp [hm], hn⟩

theorem lastMatch_none_iff (n : List Char) (ds : List ParsedState) :
    lastMatch ds n = none ↔ ∀ d ∈ ds, d.pname ≠ n := by
  induction ds with
  | nil => simp [lastMatch]
  | cons d0 ds ih =>
    rw [lastMatch_cons]
    rcases hlm : lastMatch ds n with _ | x
    · rw [hlm] at ih
      rcases hd : (d0.pname == n) with _ | _
      · rw [if_neg Bool.false_ne_true]
        simp only [beq_eq_false_iff_ne, ne_eq] at hd
        simp only [Option.elim, List.mem_cons, true_iff]
        intro a ha
        rcases ha with ha | ha
        · subst ha; exact hd
        · exact (ih.mp rfl) a ha
      · simp only [Option.elim, if_pos rfl]
        constructor
        · intro h; exact absurd h (by simp)
        · intro h
          exact absurd (beq_iff_eq.mp hd) (h d0 (by simp))
    · simp only [Option.elim]
      constructor
      · intro h; exact absurd h (by simp)
      · intro h
        obtain ⟨hm, hn⟩ := lastMatch_spec n ds x hlm
        exact absurd hn (h x (by simp [hm]))

theorem rsFold_snd_pairwise (n : List Char) (decls : List ParsedState) :
    ∀ (acc : Option State × List State),
    List.Pairwise (fun a b => a.get_name ≠ b.get_name) acc.2 →
    List.Pairwise (fun a b => a.get_name ≠ b.get_name)
      (decls.foldl (rsStep n) acc).2 := by
  induction decls with
  | nil => intro acc h; exact h
  | cons d ds ih =>
    intro acc h
    simp only [List.foldl_cons]
    exact ih _ (insertState_pairwise _ _ h)

theorem resolveStates_pairwise (decls : List ParsedState) (n : List Char) :
    List.Pairwise (fun a b => a.get_name ≠ b.get_name)
      ((resolveStates decls n).2) := by
  rw [resolveStates_eq_foldl]
  exact rsFold_snd_pairwise n decls (none, []) (by simp)

theorem rsFold_names (n : List Char) (decls : List ParsedState) :
    ∀ (acc : Option State × List State) (nm : List Char),
    ((∃ m ∈ (decls.foldl (rsStep n) acc).2, m.get_name = nm) ↔
      (∃ m ∈ acc.2, m.get_name = nm) ∨ ∃ d ∈ decls, d.pname = nm) := by
  induction decls with
  | nil => intro acc nm; simp
  | cons d ds ih =>
    intro acc nm
    simp only [List.foldl_cons]
    rw [ih]
    have h2 : ((rsStep n acc d).2 : List State) = insertState acc.2 d.toState := rfl
    rw [h2, insertState_names, toState_name]
    simp only [List.mem_cons]
    constructor
    · rintro ((h | h) | ⟨d2, hd2, hn2⟩)
      · exact Or.inl h
      · exact Or.inr ⟨d, Or.inl rfl, h⟩
      · exact Or.inr ⟨d2, Or.inr hd2, hn2⟩
    · rintro (h | ⟨d2, (hd2 | hd2), hn2⟩)
      · exact Or.inl (Or.inl h)
      · subst hd2
        exact Or.inl (Or.inr hn2)
      · exact Or.inr ⟨d2, hd2, hn2⟩

theorem resolveStates_names (decls : List ParsedState) (n nm : List Char) :
    (∃ m ∈ (resolveStates decls n).2, m.get_name = nm) ↔
      ∃ d ∈ decls, d.pname = nm := by
  rw [resolveStates_eq_foldl, rsFold_names]
  simp

theorem rsFold_fst (n : List Char) (decls : List ParsedState) :
    ∀ (acc : Option State × List State),
    (decls.foldl (rsStep n) acc).1 =
      (lastMatch decls n).elim acc.1 (fun d => some d.toState) := by
  induction decls with
  | nil => intro acc; rfl
  | cons d ds ih =>
    intro acc
    simp only [List.foldl_cons]
    rw [ih, lastMatch_cons]
    rcases lastMatch ds n with _ | x
    · have h2 : ((rsStep n acc d).1 : Option State) =
          if d.pname == n then some d.toState else acc.1 := rfl
      rw [h2]
      rcases hd : (d.pname == n) with _ | _ <;> simp
    · simp

theorem resolveStates_fst (decls : List ParsedState) (n : List Char) :
    (resolveStates decls n).1 =
      (lastMatch decls n).elim none (fun d => some d.toState) := by
  rw [resolveStates_eq_foldl]
  exact rsFold_fst n decls (none, [])

theorem resolveStates_fst_mem (decls : List ParsedState) (n : List Char)
    (s : State) (h : (resolveStates decls n).1 = some s) :
    ∃ m ∈ (resolveStates decls n).2, stateEq s m = true := by
  rw [resolveStates_fst] at h
  rcases hlm : lastMatch decls n with _ | d
  · rw [hlm] at h
    simp at h
  · rw [hlm] at h
    simp only [Option.elim, Option.some.injEq] at h
    obtain ⟨hdm, hdn⟩ := lastMatch_spec n decls d hlm
    obtain ⟨m, hm, hmn⟩ := (resolveStates_names decls n d.pname).mpr ⟨d, hdm, rfl⟩
    refine ⟨m, hm, ?_⟩
    rw [stateEq_iff, ← h, toState_name, hmn]

theorem resolveStates_fst_none_iff (decls : List ParsedState) (n : List Char) :
    (resolveStates decls n).1 = none ↔ ∀ d ∈ decls, d.pname ≠ n := by
  rw [resolveStates_fst]
  rcases hlm : lastMatch decls n with _ | d
  · constructor
    · intro _
      exact (lastMatch_none_iff n decls).mp hlm
    · intro _
      rfl
  · simp only [Option.elim]
    obtain ⟨hdm, hdn⟩ := lastMatch_spec n decls d hlm
    constructor
    · intro h; exact absurd h (by simp)
    · intro h; exact absurd hdn (h d hdm)

theorem rsFold_resolveEnd (n : List Char) (decls : List ParsedState) :
    ∀ (acc : Option State × List State) (nm : List Char),
    resolveEnd (decls.foldl (rsStep n) acc).2 nm =
      (resolveEnd acc.2 nm).elim
        ((decls.find? (fun d => d.pname == nm)).map ParsedState.toState) some := by
  induction decls with
  | nil => intro acc nm; simp [List.find?]; rcases resolveEnd acc.2 nm <;> simp
  | cons d ds ih =>
    intro acc nm
    simp only [List.foldl_cons]
    rw [ih]
    have h2 : ((rsStep n acc d).2 : List State) = insertState acc.2 d.toState := rfl
    rw [h2, resolveEnd_insertState, toState_name]
    rcases hre : resolveEnd acc.2 nm with _ | m
    · simp only [Option.elim, List.find?]
      rcases hd : (d.pname == nm) with _ | _ <;> simp [hd]
    · simp [List.find?]

theorem resolveStates_resolveEnd (decls : List ParsedState) (n nm : List Char) :
    resolveEnd ((resolveStates decls n).2) nm =
      (decls.find? (fun d => d.pname == nm)).map ParsedState.toState := by
  rw [resolveStates_eq_foldl, rsFold_resolveEnd]
  rfl

theorem insertChar_mem (l : List Char) (c a : Char) :
    a ∈ insertChar l c ↔ a ∈ l ∨ a = c := by
  unfold insertChar
  rcases ha : l.any (fun y => y == c) with _ | _
  · rw [if_neg Bool.false_ne_true]
    simp
  · rw [if_pos rfl]
    simp only [List.any_eq_true, beq_iff_eq] at ha
    obtain ⟨x, hx, hxc⟩ := ha
    subst hxc
    constructor
    · exact Or.inl
    · rintro (h | h)
      · exact h
      · subst h; exact hx

theorem insertChar_nodup (l : List Char) (c : Char) (h : l.Nodup) :
    (insertChar l c).Nodup := by
  unfold insertChar
  rcases ha : l.any (fun y => y == c) with _ | _
  · rw [if_neg Bool.false_ne_true]
    simp only [List.any_eq_false, beq_iff_eq] at ha
    rw [List.nodup_append]
    refine ⟨h, by simp, ?_⟩
    intro a hal hac
    exact ha a hal (List.mem_singleton.mp hac)
  · rw [if_pos rfl]
    exact h

theorem alphFold_mem (ts : List ParsedTransition) :
    ∀ (acc : List Char) (a : Char),
    a ∈ ts.foldl (fun acc t => insertChar acc t.input) acc ↔
      a ∈ acc ∨ ∃ t ∈ ts, t.input = a := by
  induction ts with
  | nil => intro acc a; simp
  | cons t ts ih =>
    intro acc a
    simp only [List.foldl_cons]
    rw [ih, insertChar_mem]
    simp only [List.mem_cons]
    constructor
    · rintro ((h | h) | ⟨t2, ht2, hn2⟩)
      · exact Or.inl h
      · exact Or.inr ⟨t, Or.inl rfl, h.symm⟩
      · exact Or.inr ⟨t2, Or.inr ht2, hn2⟩
    · rintro (h | ⟨t2, (ht2 | ht2), hn2⟩)
      · exact Or.inl (Or.inl h)
      · subst ht2
        exact Or.inl (Or.inr hn2.symm)
      · exact Or.inr ⟨t2, ht2, hn2⟩

theorem alphabetOf_mem (ts : List ParsedTransition) (a : Char) :
    a ∈ alphabetOf ts ↔ ∃ t ∈ ts, t.input = a := by
  rw [alphabetOf, alphFold_mem]
  simp

theorem alphabetOf_nodup (ts : List ParsedTransition) :
    (alphabetOf ts).Nodup := by
  rw [alphabetOf]
  have h : ∀ (acc : List Char), acc.Nodup →
      (ts.foldl (fun acc t => insertChar acc t.input) acc).Nodup := by
    induction ts with
    | nil => intro acc h; exact h
    | cons t ts ih =>
      intro acc h
      simp only [List.foldl_cons]
      exact ih _ (insertChar_nodup _ _ h)
  exact h [] (by simp)

theorem validate_eq (p : ParsedFSM) :
    validate_parsed_fsm p =
      match sweep (resolveStates p.states p.start_state).2 p.transitions
          (alphabetOf p.transitions) [] with
      | .error e => .error e
      | .ok trs =>
        match (resolveStates p.states p.start_state).1 with
        | some s => .ok ⟨s, trs, alphabetOf p.transitions⟩
        | none => .error .NoStartState := rfl

theorem validate_ok_spec (p : ParsedFSM) (fsm : FSM)
    (h : validate_parsed_fsm p = .ok fsm) :
    fsm.input_alphabet = alphabetOf p.transitions ∧
    (∃ m ∈ (resolveStates p.states p.start_state).2,
        stateEq fsm.start_state m = true) ∧
    (∀ c ∈ fsm.input_alphabet, ∀ s ∈ (resolveStates p.states p.start_state).2,
        keyCount fsm.transitions c s = 1) ∧
    (∀ t ∈ fsm.transitions, t.input ∈ fsm.input_alphabet ∧
        t.start_state ∈ (resolveStates p.states p.start_state).2 ∧
        t.end_state ∈ (resolveStates p.states p.start_state).2) ∧
    (∀ c s', c ∉ fsm.input_alphabet → keyCount fsm.transitions c s' = 0) := by
  rw [validate_eq] at h
  rcases hsw : sweep (resolveStates p.states p.start_state).2 p.transitions
      (alphabetOf p.transitions) [] with e | trs
  · rw [hsw] at h
    simp at h
  rw [hsw] at h
  simp only at h
  rcases hst : (resolveStates p.states p.start_state).1 with _ | s
  · rw [hst] at h
    simp at h
  rw [hst] at h
  simp only [Except.ok.injEq] at h
  subst h
  obtain ⟨k1, k2, k3⟩ := sweep_spec (resolveStates p.states p.start_state).2
    p.transitions (alphabetOf p.transitions) [] trs (alphabetOf_nodup _)
    (resolveStates_pairwise _ _) (fun c _ s' => keyCount_nil c s') hsw
  refine ⟨rfl, resolveStates_fst_mem _ _ _ hst, k1, ?_, ?_⟩
  · intro t ht
    rcases k3 t ht with h2 | h2
    · exact absurd h2 (List.not_mem_nil t)
    · exact h2
  · intro c s' hc
    rw [k2 c s' hc]
    exact keyCount_nil c s'

theorem any_beq_iff_mem (l : List Char) (c : Char) :
    (l.any (fun y => y == c)) = true ↔ c ∈ l := by
  simp only [List.any_eq_true, beq_iff_eq]
  constructor
  · rintro ⟨x, hx, hxc⟩
    subst hxc
    exact hx
  · intro h
    exact ⟨c, h, rfl⟩

theorem runFrom_total (fsm : FSM) (states : List State)
    (hk : ∀ c ∈ fsm.input_alphabet, ∀ s ∈ states, keyCount fsm.transitions c s = 1)
    (hend : ∀ t ∈ fsm.transitions, t.end_state ∈ states) :
    ∀ (input : List Char) (cur : State), (∃ m ∈ states, stateEq cur m = true) →
    ∃ r, runFrom fsm cur input = some r ∧
      ((∃ b, r = .ok b) ∨ ∃ c, r = .error (.CharNotInInputAlphabet c)) := by
  intro input
  induction input with
  | nil =>
    intro cur _
    exact ⟨_, rfl, Or.inl ⟨_, rfl⟩⟩
  | cons c rest ih =>
    intro cur hcur
    rcases hmem : fsm.input_alphabet.any (fun y => y == c) with _ | _
    · refine ⟨.error (.CharNotInInputAlphabet c), ?_, Or.inr ⟨c, rfl⟩⟩
      simp only [runFrom]
      rw [if_neg (by simp [hmem])]
    · have hc : c ∈ fsm.input_alphabet := (any_beq_iff_mem _ _).mp hmem
      obtain ⟨m, hm, hcm⟩ := hcur
      have hkey : keyCount fsm.transitions c cur ≠ 0 := by
        rw [keyCount_congr fsm.transitions c ((stateEq_iff _ _).mp hcm)]
        rw [hk c hc m hm]
        exact one_ne_zero
      obtain ⟨t, hget, htmem, _, _⟩ :=
        getTransition_eq_some_of_pos fsm.transitions c cur (State.state []) hkey
      obtain ⟨r, hr, hshape⟩ :=
        ih t.end_state ⟨t.end_state, hend t htmem, stateEq_refl _⟩
      refine ⟨r, ?_, hshape⟩
      simp only [runFrom]
      rw [if_pos hmem, hget]
      exact hr

theorem runFrom_first_bad (fsm : FSM) (states : List State)
    (hk : ∀ c ∈ fsm.input_alphabet, ∀ s ∈ states, keyCount fsm.transitions c s = 1)
    (hend : ∀ t ∈ fsm.transitions, t.end_state ∈ states) :
    ∀ (pre : List Char) (cur : State), (∃ m ∈ states, stateEq cur m = true) →
    (∀ a ∈ pre, a ∈ fsm.input_alphabet) →
    ∀ (c : Char), c ∉ fsm.input_alphabet → ∀ (suf : List Char),
    runFrom fsm cur (pre ++ c :: suf) =
      some (.error (.CharNotInInputAlphabet c)) := by
  intro pre
  induction pre with
  | nil =>
    intro cur _ _ c hc suf
    simp only [List.nil_append, runFrom]
    rw [if_neg]
    intro hany
    exact hc ((any_beq_iff_mem _ _).mp hany)
  | cons a pre ih =>
    intro cur hcur hpre c hc suf
    have ha : a ∈ fsm.input_alphabet := hpre a (by simp)
    obtain ⟨m, hm, hcm⟩ := hcur
    have hkey : keyCount fsm.transitions a cur ≠ 0 := by
      rw [keyCount_congr fsm.transitions a ((stateEq_iff _ _).mp hcm)]
      rw [hk a ha m hm]
      exact one_ne_zero
    obtain ⟨t, hget, htmem, _, _⟩ :=
      getTransition_eq_some_of_pos fsm.transitions a cur (State.state []) hkey
    simp only [List.cons_append, runFrom]
    rw [if_pos ((any_beq_iff_mem _ _).mpr ha), hget]
    exact ih t.end_state ⟨t.end_state, hend t htmem, stateEq_refl _⟩
      (fun a2 ha2 => hpre a2 (by simp [ha2])) c hc suf

/-- A small valid specification (one state `A`, one looping transition on
`'0'`, start `A`) and its validated automaton, used as concrete input for
the witnesses below. -/
def exP : ParsedFSM :=
  ⟨chars "A", [ParsedState.state (chars "A")], [⟨'0', chars "A", chars "A"⟩]⟩

/-- The automaton `validate_parsed_fsm` produces for `exP`. -/
def exFSM : FSM :=
  ⟨State.state (chars "A"),
   [⟨'0', State.state (chars "A"), State.state (chars "A")⟩], ['0']⟩

/-- C1: for every automaton returned successfully by the validator, for
every state reachable in it (the start identity and every transition end
identity) and every symbol of its derived alphabet, the transition set
contains exactly one entry keyed by that (symbol, state) pair. -/
theorem c1_totality (p : ParsedFSM) (fsm : FSM)
    (h : validate_parsed_fsm p = .ok fsm) (S : State)
    (hS : S = fsm.start_state ∨ ∃ t ∈ fsm.transitions, t.end_state = S)
    (c : Char) (hc : c ∈ fsm.input_alphabet) :
    keyCount fsm.transitions c S = 1 := by
  obtain ⟨_, ⟨m, hm, hsm⟩, hk, hmemt, _⟩ := validate_ok_spec p fsm h
  rcases hS with hS | ⟨t, ht, hte⟩
  · subst hS
    rw [keyCount_congr fsm.transitions c ((stateEq_iff _ _).mp hsm)]
    exact hk c hc m hm
  · subst hte
    exact hk c hc t.end_state (hmemt t ht).2.2

theorem c1_totality_witness :
    keyCount exFSM.transitions '0' (State.state (chars "A")) = 1 :=
  c1_totality exP exFSM (by decide) (State.state (chars "A"))
    (Or.inl rfl) '0' (by decide)

/-- C2: running a validated automaton never reaches the panic of the
`.expect`: the lookup always hits, so `run` returns `Ok(bool)` or
`Err(CharNotInInputAlphabet)`. -/
theorem c2_run_no_panic (p : ParsedFSM) (fsm : FSM)
    (h : validate_parsed_fsm p = .ok fsm) (input : List Char) :
    ∃ r, fsm.run input = some r ∧
      ((∃ b, r = .ok b) ∨ ∃ c, r = .error (.CharNotInInputAlphabet c)) := by
  obtain ⟨_, hstart, hk, hmemt, _⟩ := validate_ok_spec p fsm h
  exact runFrom_total fsm (resolveStates p.states p.start_state).2 hk
    (fun t ht => (hmemt t ht).2.2) input fsm.start_state hstart

theorem c2_run_no_panic_witness :
    ∃ r, exFSM.run (chars "0x0") = some r ∧
      ((∃ b, r = .ok b) ∨ ∃ c, r = .error (.CharNotInInputAlphabet c)) :=
  c2_run_no_panic exP exFSM (by decide) (chars "0x0")

/-- C6: on an input whose first out-of-alphabet character is `c`, a
validated automaton fails with `CharNotInInputAlphabet c`, and the result
does not depend on anything after `c`. -/
theorem c6_first_bad_char (p : ParsedFSM) (fsm : FSM)
    (h : validate_parsed_fsm p = .ok fsm) (pre : List Char) (c : Char)
    (suf : List Char) (hpre : ∀ a ∈ pre, a ∈ fsm.input_alphabet)
    (hc : c ∉ fsm.input_alphabet) :
    fsm.run (pre ++ c :: suf) = some (.error (.CharNotInInputAlphabet c)) := by
  obtain ⟨_, hstart, hk, hmemt, _⟩ := validate_ok_spec p fsm h
  exact runFrom_first_bad fsm (resolveStates p.states p.start_state).2 hk
    (fun t ht => (hmemt t ht).2.2) pre fsm.start_state hstart hpre c hc suf

theorem c6_first_bad_char_witness :
    exFSM.run (['0'] ++ 'x' :: ['0', 'y']) =
      some (.error (.CharNotInInputAlphabet 'x')) :=
  c6_first_bad_char exP exFSM (by decide) ['0'] 'x' ['0', 'y']
    (by decide) (by decide)

theorem first_bad_split (q : Char → Bool) (input : List Char) (c : Char)
    (hcin : c ∈ input) (hc : q c = false) :
    ∃ pre c2 suf, input = pre ++ c2 :: suf ∧
      (∀ a ∈ pre, q a = true) ∧ q c2 = false := by
  induction input with
  | nil => cases hcin
  | cons a rest ih =>
    rcases ha : q a with _ | _
    · exact ⟨[], a, rest, rfl, by simp, ha⟩
    · have hcr : c ∈ rest := by
        rcases List.mem_cons.mp hcin with h | h
        · subst h
          rw [hc] at ha
          cases ha
        · exact h
      obtain ⟨pre, c2, suf, he, hp, hq2⟩ := ih hcr
      refine ⟨a :: pre, c2, suf, by simp [he], ?_, hq2⟩
      intro x hx
      rcases List.mem_cons.mp hx with h | h
      · subst h
        exact ha
      · exact hp x h

/-- C7: for a successfully validated specification the automaton's alphabet
is exactly the set of symbols occurring in some declared transition, and
running on any input containing a character that occurs in no declared
transition fails with `CharNotInInputAlphabet`. -/
theorem c7_alphabet_derivation (p : ParsedFSM) (fsm : FSM)
    (h : validate_parsed_fsm p = .ok fsm) :
    (∀ c, c ∈ fsm.input_alphabet ↔ ∃ t ∈ p.transitions, t.input = c) ∧
    (∀ (input : List Char) (c : Char), c ∈ input →
      (∀ t ∈ p.transitions, t.input ≠ c) →
      ∃ c2, c2 ∉ fsm.input_alphabet ∧
        fsm.run input = some (.error (.CharNotInInputAlphabet c2))) := by
  obtain ⟨halph, hstart, hk, hmemt, _⟩ := validate_ok_spec p fsm h
  have hiff : ∀ c, c ∈ fsm.input_alphabet ↔ ∃ t ∈ p.transitions, t.input = c := by
    intro c
    rw [halph]
    exact alphabetOf_mem p.transitions c
  refine ⟨hiff, ?_⟩
  intro input c hcin hnot
  have hcna : c ∉ fsm.input_alphabet := by
    rw [hiff]
    rintro ⟨t, ht, hti⟩
    exact hnot t ht hti
  obtain ⟨pre, c2, suf, he, hp, hq2⟩ := first_bad_split
    (fun a => decide (a ∈ fsm.input_alphabet)) input c hcin (by simp [hcna])
  refine ⟨c2, by simpa using hq2, ?_⟩
  rw [he]
  exact runFrom_first_bad fsm (resolveStates p.states p.start_state).2 hk
    (fun t ht => (hmemt t ht).2.2) pre fsm.start_state hstart
    (fun a ha => by simpa using hp a ha) c2 (by simpa using hq2) suf

theorem c7_alphabet_derivation_witness :
    ('0' ∈ exFSM.input_alphabet ↔ ∃ t ∈ exP.transitions, t.input = '0') ∧
    ∃ c2, c2 ∉ exFSM.input_alphabet ∧
      exFSM.run (chars "x0") = some (.error (.CharNotInInputAlphabet c2)) :=
  ⟨(c7_alphabet_derivation exP exFSM (by decide)).1 '0',
   (c7_alphabet_derivation exP exFSM (by decide)).2 (chars "x0") 'x'
     (by decide) (by decide)⟩

theorem validate_eq_error_sweep (p : ParsedFSM) (e : FSMError)
    (hsw : sweep (resolveStates p.states p.start_state).2 p.transitions
      (alphabetOf p.transitions) [] = .error e) :
    validate_parsed_fsm p = .error e := by
  rw [validate_eq, hsw]

theorem validate_eq_ok_sweep (p : ParsedFSM) (trs : List Transition)
    (hsw : sweep (resolveStates p.states p.start_state).2 p.transitions
      (alphabetOf p.transitions) [] = .ok trs) :
    validate_parsed_fsm p =
      match (resolveStates p.states p.start_state).1 with
      | some s => .ok ⟨s, trs, alphabetOf p.transitions⟩
      | none => .error .NoStartState := by
  rw [validate_eq, hsw]

/-- A specification whose start name `X` matches no declared state and whose
single transition ends in the undeclared state `B`. -/
def cexC3 : ParsedFSM :=
  ⟨chars "X", [ParsedState.state (chars "A")], [⟨'0', chars "A", chars "B"⟩]⟩

/-- C3 counterexample: on a specification with an unmatched start name AND a
dangling transition target, the validator reports `UnknownState`, not
`NoStartState` — the start-state check happens after the sweep, not in
step 1. -/
theorem c3_counterexample :
    (∀ d ∈ cexC3.states, d.pname ≠ cexC3.start_state) ∧
    validate_parsed_fsm cexC3 = .error (.UnknownState (chars "B")) ∧
    validate_parsed_fsm cexC3 ≠ .error .NoStartState := by decide

/-- C3 amended: a specification whose start name matches no declared state
always fails, but `NoStartState` is the reported error only when the
totality/determinism sweep finishes without its own error; a sweep error
takes precedence. -/
theorem c3_amended_no_start (p : ParsedFSM)
    (hstart : ∀ d ∈ p.states, d.pname ≠ p.start_state) :
    (∃ e, validate_parsed_fsm p = .error e) ∧
    (∀ trs, sweep (resolveStates p.states p.start_state).2 p.transitions
        (alphabetOf p.transitions) [] = .ok trs →
      validate_parsed_fsm p = .error .NoStartState) := by
  have hnone : (resolveStates p.states p.start_state).1 = none :=
    (resolveStates_fst_none_iff _ _).mpr hstart
  constructor
  · rcases hsw : sweep (resolveStates p.states p.start_state).2 p.transitions
        (alphabetOf p.transitions) [] with e | trs
    · exact ⟨e, validate_eq_error_sweep p e hsw⟩
    · refine ⟨.NoStartState, ?_⟩
      rw [validate_eq_ok_sweep p trs hsw, hnone]
  · intro trs hsw
    rw [validate_eq_ok_sweep p trs hsw, hnone]

/-- Unmatched start name with an otherwise well-formed specification. -/
def cexC3ok : ParsedFSM :=
  ⟨chars "X", [ParsedState.state (chars "A")], [⟨'0', chars "A", chars "A"⟩]⟩

theorem c3_amended_no_start_witness :
    (∃ e, validate_parsed_fsm cexC3ok = .error e) ∧
    (∀ trs, sweep (resolveStates cexC3ok.states cexC3ok.start_state).2
        cexC3ok.transitions (alphabetOf cexC3ok.transitions) [] = .ok trs →
      validate_parsed_fsm cexC3ok = .error .NoStartState) :=
  c3_amended_no_start cexC3ok (by decide)

theorem findMatches_congr (ts : List ParsedTransition) (c : Char)
    {s s' : State} (h : s.get_name = s'.get_name) :
    findMatches ts c s = findMatches ts c s' := by
  simp only [findMatches, h]

theorem sweepState_all_good (states : List State) (ts : List ParsedTransition)
    (c : Char) (slist : List State) :
    ∀ (acc : List Transition),
    (∀ s ∈ slist, ∃ t, findMatches ts c s = [t] ∧
      (resolveEnd states t.end_state).isSome) →
    ∃ acc2, sweepState states ts c slist acc = .ok acc2 := by
  induction slist with
  | nil =>
    intro acc _
    exact ⟨acc, rfl⟩
  | cons s rest ih =>
    intro acc hgood
    obtain ⟨t, hfm, hsome⟩ := hgood s (by simp)
    rcases hre : resolveEnd states t.end_state with _ | e
    · rw [hre] at hsome
      cases hsome
    · simp only [sweepState, hfm, hre]
      exact ih _ (fun s2 hs2 => hgood s2 (by simp [hs2]))

theorem sweepState_extra (states : List State) (ts : List ParsedTransition)
    (c0 : Char) (s0 : State) (t1 t2 : ParsedTransition)
    (rest0 : List ParsedTransition)
    (hbad : findMatches ts c0 s0 = t1 :: t2 :: rest0) (slist : List State) :
    ∀ (acc : List Transition), s0 ∈ slist →
    (∀ s ∈ slist, s.get_name ≠ s0.get_name →
      ∃ t, findMatches ts c0 s = [t] ∧ (resolveEnd states t.end_state).isSome) →
    sweepState states ts c0 slist acc = .error (.ExtraTransition t1 t2) := by
  induction slist with
  | nil =>
    intro acc hmem _
    cases hmem
  | cons s rest ih =>
    intro acc hmem hgood
    by_cases hname : s.get_name = s0.get_name
    · have hfm : findMatches ts c0 s = t1 :: t2 :: rest0 := by
        rw [findMatches_congr ts c0 hname]
        exact hbad
      simp only [sweepState, hfm]
    · obtain ⟨t, hfm, hsome⟩ := hgood s (by simp) hname
      rcases hre : resolveEnd states t.end_state with _ | e
      · rw [hre] at hsome
        cases hsome
      · simp only [sweepState, hfm, hre]
        have hs0rest : s0 ∈ rest := by
          rcases List.mem_cons.mp hmem with h | h
          · subst h
            exact absurd rfl hname
          · exact h
        exact ih _ hs0rest (fun s2 hs2 hn2 => hgood s2 (by simp [hs2]) hn2)

theorem sweep_extra (states : List State) (ts : List ParsedTransition)
    (c0 : Char) (s0 : State) (t1 t2 : ParsedTransition)
    (rest0 : List ParsedTransition)
    (hbad : findMatches ts c0 s0 = t1 :: t2 :: rest0)
    (hs0 : s0 ∈ states) (cs : List Char) :
    ∀ (acc : List Transition), c0 ∈ cs →
    (∀ c ∈ cs, ∀ s ∈ states, ¬(c = c0 ∧ s.get_name = s0.get_name) →
      ∃ t, findMatches ts c s = [t] ∧ (resolveEnd states t.end_state).isSome) →
    sweep states ts cs acc = .error (.ExtraTransition t1 t2) := by
  induction cs with
  | nil =>
    intro acc hmem _
    cases hmem
  | cons c cs ih =>
    intro acc hmem hgood
    by_cases hc : c = c0
    · subst hc
      have hss := sweepState_extra states ts c s0 t1 t2 rest0 hbad states acc hs0
        (fun s hs hn => hgood c (by simp) s hs (fun hpair => hn hpair.2))
      simp only [sweep, hss]
    · obtain ⟨acc2, hss⟩ := sweepState_all_good states ts c states acc
        (fun s hs => hgood c (by simp) s hs (fun hpair => hc hpair.1))
      simp only [sweep, hss]
      have hc0cs : c0 ∈ cs := by
        rcases List.mem_cons.mp hmem with h | h
        · exact absurd h.symm hc
        · exact h
      exact ih acc2 hc0cs (fun c2 hc2 s hs hn => hgood c2 (by simp [hc2]) s hs hn)

/-- C4: when one (symbol, state) pair of the cross product matches two or
more declared transitions while every other pair matches exactly one with a
resolvable target, validation fails with `ExtraTransition` carrying the
first two matching declarations in declaration order — even when both
declarations name the same target. -/
theorem c4_extra_transition (p : ParsedFSM) (c0 : Char) (s0 : State)
    (t1 t2 : ParsedTransition) (rest0 : List ParsedTransition)
    (hs0 : s0 ∈ (resolveStates p.states p.start_state).2)
    (hc0 : c0 ∈ alphabetOf p.transitions)
    (hbad : findMatches p.transitions c0 s0 = t1 :: t2 :: rest0)
    (hothers : ∀ c ∈ alphabetOf p.transitions,
      ∀ s ∈ (resolveStates p.states p.start_state).2,
      ¬(c = c0 ∧ s.get_name = s0.get_name) →
      ∃ t, findMatches p.transitions c s = [t] ∧
        (resolveEnd (resolveStates p.states p.start_state).2
          t.end_state).isSome) :
    validate_parsed_fsm p = .error (.ExtraTransition t1 t2) :=
  validate_eq_error_sweep p _
    (sweep_extra (resolveStates p.states p.start_state).2 p.transitions
      c0 s0 t1 t2 rest0 hbad hs0 (alphabetOf p.transitions) [] hc0 hothers)

/-- Two identical declarations of the same (symbol, state) transition. -/
def cexC4 : ParsedFSM :=
  ⟨chars "A", [ParsedState.state (chars "A")],
   [⟨'0', chars "A", chars "A"⟩, ⟨'0', chars "A", chars "A"⟩]⟩

theorem c4_extra_transition_witness :
    validate_parsed_fsm cexC4 =
      .error (.ExtraTransition ⟨'0', chars "A", chars "A"⟩
        ⟨'0', chars "A", chars "A"⟩) :=
  c4_extra_transition cexC4 '0' (State.state (chars "A"))
    ⟨'0', chars "A", chars "A"⟩ ⟨'0', chars "A", chars "A"⟩ []
    (by decide) (by decide) (by decide)
    (by
      intro c hc s hs hne
      exfalso
      apply hne
      have hc2 : c = '0' := by
        have he : alphabetOf cexC4.transitions = ['0'] := by decide
        rw [he] at hc
        simpa using hc
      have hs2 : s = State.state (chars "A") := by
        have he : (resolveStates cexC4.states cexC4.start_state).2 =
            [State.state (chars "A")] := by decide
        rw [he] at hs
        simpa using hs
      exact ⟨hc2, by rw [hs2]⟩)

theorem sweepState_unknown (states : List State) (ts : List ParsedTransition)
    (c : Char) (slist : List State) :
    ∀ (acc : List Transition) (n : List Char),
    sweepState states ts c slist acc = .error (.UnknownState n) →
    (∃ t ∈ ts, t.end_state = n) ∧ resolveEnd states n = none := by
  induction slist with
  | nil =>
    intro acc n h
    simp [sweepState] at h
  | cons s rest ih =>
    intro acc n h
    rcases hfm : findMatches ts c s with _ | ⟨t, tl⟩
    · simp only [sweepState, hfm] at h
      simp at h
    rcases tl with _ | ⟨t2, more⟩
    · rcases hre : resolveEnd states t.end_state with _ | e
      · simp only [sweepState, hfm, hre] at h
        simp only [Except.error.injEq, FSMError.UnknownState.injEq] at h
        subst h
        have htm : t ∈ ts := by
          have h2 : t ∈ findMatches ts c s := by
            rw [hfm]
            simp
          exact List.mem_of_mem_filter h2
        exact ⟨⟨t, htm, rfl⟩, hre⟩
      · simp only [sweepState, hfm, hre] at h
        exact ih _ n h
    · simp only [sweepState, hfm] at h
      simp at h

theorem sweep_unknown (states : List State) (ts : List ParsedTransition)
    (cs : List Char) :
    ∀ (acc : List Transition) (n : List Char),
    sweep states ts cs acc = .error (.UnknownState n) →
    (∃ t ∈ ts, t.end_state = n) ∧ resolveEnd states n = none := by
  induction cs with
  | nil =>
    intro acc n h
    simp [sweep] at h
  | cons c cs ih =>
    intro acc n h
    rcases hss : sweepState states ts c states acc with e | acc2
    · simp only [sweep, hss] at h
      simp only [Except.error.injEq] at h
      subst h
      exact sweepState_unknown states ts c states acc n hss
    · simp only [sweep, hss] at h
      exact ih acc2 n h

/-- A dangling-start transition (`0: Z -> A` with `Z` undeclared) that is
silently ignored: validation succeeds and the automaton omits it. -/
def cexC9a : ParsedFSM :=
  ⟨chars "A", [ParsedState.state (chars "A")],
   [⟨'0', chars "A", chars "A"⟩, ⟨'0', chars "Z", chars "A"⟩]⟩

/-- A dangling-start transition whose symbol `1` still enters the derived
alphabet, making the (1, A) pair uncovered. -/
def cexC9b : ParsedFSM :=
  ⟨chars "A", [ParsedState.state (chars "A")],
   [⟨'0', chars "A", chars "A"⟩, ⟨'1', chars "Z", chars "A"⟩]⟩

/-- C9: `UnknownState` is only ever raised for an end-state name (never for
a transition's start-state name); every entry of a validated automaton has
a declared start state, so dangling-start transitions are omitted; the two
concrete cases show a dangling transition being silently dropped on success
and its symbol still causing `MissingTransition`. -/
theorem c9_dangling_start_invisible :
    (∀ (p : ParsedFSM) (n : List Char),
      validate_parsed_fsm p = .error (.UnknownState n) →
      (∃ t ∈ p.transitions, t.end_state = n) ∧ ∀ d ∈ p.states, d.pname ≠ n) ∧
    (∀ (p : ParsedFSM) (fsm : FSM), validate_parsed_fsm p = .ok fsm →
      ∀ t ∈ fsm.transitions, ∃ d ∈ p.states,
        d.pname = t.start_state.get_name) ∧
    validate_parsed_fsm cexC9a =
      .ok ⟨State.state (chars "A"),
           [⟨'0', State.state (chars "A"), State.state (chars "A")⟩],
           ['0']⟩ ∧
    validate_parsed_fsm cexC9b =
      .error (.MissingTransition '1' (State.state (chars "A"))) := by
  refine ⟨?_, ?_, by decide, by decide⟩
  · intro p n h
    rw [validate_eq] at h
    rcases hsw : sweep (resolveStates p.states p.start_state).2 p.transitions
        (alphabetOf p.transitions) [] with e | trs
    · rw [hsw] at h
      simp only at h
      simp only [Except.error.injEq] at h
      subst h
      obtain ⟨hend, hnone⟩ := sweep_unknown _ _ _ [] n hsw
      refine ⟨hend, ?_⟩
      rw [resolveStates_resolveEnd] at hnone
      simp only [Option.map_eq_none'] at hnone
      intro d hd hdn
      have h2 := List.find?_eq_none.mp hnone d hd
      simp [hdn] at h2
    · rw [hsw] at h
      simp only at h
      rcases hst : (resolveStates p.states p.start_state).1 with _ | s
      · rw [hst] at h
        simp at h
      · rw [hst] at h
        simp at h
  · intro p fsm h t ht
    obtain ⟨_, _, _, hmemt, _⟩ := validate_ok_spec p fsm h
    exact (resolveStates_names p.states p.start_state
      t.start_state.get_name).mp ⟨t.start_state, (hmemt t ht).2.1, rfl⟩

theorem c9_dangling_start_invisible_witness :
    (∃ t ∈ cexC3.transitions, t.end_state = chars "B") ∧
    ∀ d ∈ cexC3.states, d.pname ≠ chars "B" :=
  c9_dangling_start_invisible.1 cexC3 (chars "B") (by decide)

theorem lastMatch_eq_reverse_find (n : List Char) (ds : List ParsedState) :
    lastMatch ds n = ds.reverse.find? (fun d => d.pname == n) := by
  induction ds with
  | nil => rfl
  | cons d ds ih =>
    rw [lastMatch_cons, ih]
    simp only [List.reverse_cons, List.find?_append]
    rcases hrev : ds.reverse.find? (fun d => d.pname == n) with _ | x
    · rw [hrev]
      rcases hd : (d.pname == n) with _ | _ <;> simp [List.find?, hd]
    · rw [hrev]
      simp [Option.elim]

theorem resolveStates_fst_map (decls : List ParsedState) (n : List Char) :
    (resolveStates decls n).1 = (lastMatch decls n).map ParsedState.toState := by
  rw [resolveStates_fst]
  rcases lastMatch decls n with _ | d <;> rfl

/-- The same name declared twice with different tags: `final: A` first, then
plain `A`; start is `A`. -/
def cexC10 : ParsedFSM :=
  ⟨chars "A",
   [ParsedState.acceptState (chars "A"), ParsedState.state (chars "A")],
   [⟨'0', chars "A", chars "A"⟩]⟩

/-- The automaton `validate_parsed_fsm` produces for `cexC10`: the state set
kept the first (accepting) declaration, the start identity the last (plain)
one. -/
def fsmC10 : FSM :=
  ⟨State.state (chars "A"),
   [⟨'0', State.acceptState (chars "A"), State.acceptState (chars "A")⟩],
   ['0']⟩

/-- C10: duplicate state declarations with different tags collapse without
an error, but asymmetrically: name lookups against the state set (which
resolve every transition endpoint) return the first declaration's tag,
while the start identity carries the last matching declaration's tag — so
on `cexC10` the empty input is rejected while the loop `0` back to the same
state is accepted. -/
theorem c10_duplicate_name_asymmetry :
    (∀ (decls : List ParsedState) (startName nm : List Char),
      resolveEnd ((resolveStates decls startName).2) nm =
        (decls.find? (fun d => d.pname == nm)).map ParsedState.toState) ∧
    (∀ (decls : List ParsedState) (startName : List Char),
      (resolveStates decls startName).1 =
        (decls.reverse.find? (fun d => d.pname == startName)).map
          ParsedState.toState) ∧
    validate_parsed_fsm cexC10 = .ok fsmC10 ∧
    fsmC10.run [] = some (.ok false) ∧
    fsmC10.run ['0'] = some (.ok true) := by
  refine ⟨?_, ?_, by decide, by decide, by decide⟩
  · intro decls startName nm
    exact resolveStates_resolveEnd decls startName nm
  · intro decls startName
    rw [resolveStates_fst_map, lastMatch_eq_reverse_find]

theorem c10_duplicate_name_asymmetry_witness :
    resolveEnd ((resolveStates cexC10.states cexC10.start_state).2)
        (chars "A") =
      (cexC10.states.find? (fun d => d.pname == chars "A")).map
        ParsedState.toState :=
  c10_duplicate_name_asymmetry.1 cexC10.states cexC10.start_state (chars "A")

/-!
Parser embedding (fsm_parser.rs).  The nom combinators are modelled over
`List Char`: a parser takes the input and returns `none` (nom `Err`) or
`some (remaining, value)`.  `many0(is_a S)` always succeeds and consumes
the maximal run of characters of `S`, hence is modelled with `dropWhile`.
The `many0`/`many1` repetition combinators take fuel, set by the wrappers
to the input length plus one, which cannot be exhausted because every
iteration of the repeated parser consumes at least one character.  Names
carry a trailing `P` instead of the Rust `_parser` suffix.
-/

/-- The character class of `is_a("\r\n\0")`. -/
def isLineChar (c : Char) : Bool := c == '\r' || c == '\n' || c == '\x00'

/-- The character class of `is_a(" \t")`. -/
def isBlankChar (c : Char) : Bool := c == ' ' || c == '\t'

/-- The character class accepted by `is_not(" \t\r\n:")` and
`none_of(" \t\r\n:")`. -/
def isNameChar (c : Char) : Bool :=
  !(c == ' ' || c == '\t' || c == '\r' || c == '\n' || c == ':')

/-- fsm_parser.rs `line_parser`: `many0(is_a("\r\n\0"))`. -/
def lineP (i : List Char) : Option (List Char × Unit) :=
  some (i.dropWhile isLineChar, ())

/-- fsm_parser.rs `blank_space_parser`: `many0(is_a(" \t"))`. -/
def blankSpaceP (i : List Char) : Option (List Char × Unit) :=
  some (i.dropWhile isBlankChar, ())

/-- fsm_parser.rs `state_name_parser`: `is_not(" \t\r\n:")`, a maximal
nonempty run of name characters. -/
def stateNameP (i : List Char) : Option (List Char × List Char) :=
  match i.takeWhile isNameChar with
  | [] => none
  | n => some (i.dropWhile isNameChar, n)

/-- nom `tag`. -/
def tagP : List Char → List Char → Option (List Char × Unit)
| [], i => some (i, ())
| _ :: _, [] => none
| t :: ts, c :: cs => if t == c then tagP ts cs else none

/-- nom `char`. -/
def charP (c : Char) : List Char → Option (List Char × Char)
| [] => none
| x :: xs => if x == c then some (xs, x) else none

/-- nom `none_of(" \t\r\n:")`. -/
def noneOfNameP : List Char → Option (List Char × Char)
| [] => none
| x :: xs => if isNameChar x then some (xs, x) else none

/-- fsm_parser.rs `state_parser`: `opt(char('\t'), tag("final:"))` decides
between the accepting and the plain branch; the plain branch restarts from
the original input, as `opt` does. -/
def stateP (i : List Char) : Option (List Char × ParsedState) :=
  match (do
    let (i1, _) ← charP '\t' i
    tagP (chars "final:") i1 : Option (List Char × Unit)) with
  | some (i2, _) => do
    let (i3, _) ← blankSpaceP i2
    let (i4, n) ← stateNameP i3
    let (i5, _) ← lineP i4
    some (i5, ParsedState.acceptState n)
  | none => do
    let (i1, _) ← charP '\t' i
    let (i2, n) ← stateNameP i1
    let (i3, _) ← lineP i2
    some (i3, ParsedState.state n)

/-- `many0(state_parser)`; `state_parser` consumes at least the leading
tab, so the fuel the wrapper passes is never exhausted. -/
def many0StateP : Nat → List Char → List Char × List ParsedState
| 0, i => (i, [])
| fuel + 1, i =>
  match stateP i with
  | none => (i, [])
  | some (i2, s) =>
    let r := many0StateP fuel i2
    (r.1, s :: r.2)

/-- fsm_parser.rs `state_block_parser`. -/
def stateBlockP (i : List Char) : Option (List Char × List ParsedState) := do
  let (i1, _) ← lineP i
  let (i2, _) ← tagP (chars "states:") i1
  let (i3, _) ← lineP i2
  some (many0StateP (i3.length + 1) i3)

/-- fsm_parser.rs `input_char_parser`. -/
def inputCharP (i : List Char) : Option (List Char × Char) := do
  let (i1, _) ← blankSpaceP i
  let (i2, c) ← noneOfNameP i1
  let (i3, _) ← charP ':' i2
  let (i4, _) ← blankSpaceP i3
  some (i4, c)

/-- fsm_parser.rs `transition_parser`. -/
def transitionP (i : List Char) : Option (List Char × ParsedTransition) := do
  let (i1, c) ← inputCharP i
  let (i2, ns) ← stateNameP i1
  let (i3, _) ← blankSpaceP i2
  let (i4, _) ← tagP (chars "->") i3
  let (i5, _) ← blankSpaceP i4
  let (i6, ne) ← stateNameP i5
  let (i7, _) ← lineP i6
  some (i7, ⟨c, ns, ne⟩)

/-- `many0(transition_parser)` with fuel, as for states. -/
def many0TransP : Nat → List Char → List Char × List ParsedTransition
| 0, i => (i, [])
| fuel + 1, i =>
  match transitionP i with
  | none => (i, [])
  | some (i2, t) =>
    let r := many0TransP fuel i2
    (r.1, t :: r.2)

/-- fsm_parser.rs `transitions_block_parser`: `many1` is one mandatory
`transition_parser` followed by `many0`. -/
def transitionsBlockP (i : List Char) :
    Option (List Char × List ParsedTransition) := do
  let (i1, _) ← lineP i
  let (i2, _) ← tagP (chars "transitions:") i1
  let (i3, _) ← lineP i2
  let (i4, t) ← transitionP i3
  let r := many0TransP (i4.length + 1) i4
  some (r.1, t :: r.2)

/-- fsm_parser.rs `start_block_parser`. -/
def startBlockP (i : List Char) : Option (List Char × List Char) := do
  let (i1, _) ← lineP i
  let (i2, _) ← tagP (chars "start:") i1
  let (i3, _) ← blankSpaceP i2
  stateNameP i3

/-- One pass of nom's `permutation`: try each not-yet-finished sub-parser
in tuple order at the current input and apply the first success. -/
def permTry (i : List Char) (r1 : Option (List Char))
    (r2 : Option (List ParsedState)) (r3 : Option (List ParsedTransition)) :
    Option (List Char × Option (List Char) × Option (List ParsedState) ×
      Option (List ParsedTransition)) :=
  match r1, startBlockP i with
  | none, some (i2, v) => some (i2, some v, r2, r3)
  | _, _ =>
    match r2, stateBlockP i with
    | none, some (i2, v) => some (i2, r1, some v, r3)
    | _, _ =>
      match r3, transitionsBlockP i with
      | none, some (i2, v) => some (i2, r1, r2, some v)
      | _, _ => none

/-- nom's `permutation` loop: restart the pass after every success, return
once all three sub-parsers have been applied, fail when a full pass applies
none.  Three successes finish the loop, so fuel 4 is never exhausted. -/
def permLoop : Nat → List Char → Option (List Char) →
    Option (List ParsedState) → Option (List ParsedTransition) →
    Option (List Char × ParsedFSM)
| 0, _, _, _, _ => none
| fuel + 1, i, r1, r2, r3 =>
  match r1, r2, r3 with
  | some s, some ss, some ts => some (i, ⟨s, ss, ts⟩)
  | _, _, _ =>
    match permTry i r1 r2 r3 with
    | some (i2, n1, n2, n3) => permLoop fuel i2 n1 n2 n3
    | none => none

/-- fsm_parser.rs `definition_parser`: the permutation of the start, states
and transitions block parsers, in that tuple order. -/
def definitionP (i : List Char) : Option (List Char × ParsedFSM) :=
  permLoop 4 i none none none

/-- The sample specification text of spec.md section 6. -/
def sampleText : List Char :=
  chars "states:\n\tA\n\tB\n\tfinal: C\n\ntransitions:\n\t0: A -> B\n\t0: B -> C\n\t0: C -> A\n\t1: B -> A\n\t1: C -> B\n\t1: A -> C\n\nstart: A"

/-- Parse the sample text, validate it, and run the automaton: `none` if
parsing or validation failed, otherwise the run result. -/
def sampleRun (input : List Char) : Option (Option (Except FSMError Bool)) :=
  match definitionP sampleText with
  | none => none
  | some (_, p) =>
    match validate_parsed_fsm p with
    | .error _ => none
    | .ok fsm => some (fsm.run input)

/-- C5: the section-6 sample parses and validates, and the resulting
automaton rejects "0011" and "000" and accepts "00". -/
theorem c5_round_trip :
    sampleRun (chars "0011") = some (some (.ok false)) ∧
    sampleRun (chars "000") = some (some (.ok false)) ∧
    sampleRun (chars "00") = some (some (.ok true)) := by decide

/-!
Development for the block-permutation property: canonical renderings of the
three blocks (each line newline-terminated, one space after `final:`,
`start:` and around `->`, each block ending with a newline so that
concatenation in any order keeps the blocks apart).
-/

/-- One rendered state line: `TAB name NL` or `TAB final: name NL`. -/
def renderState : ParsedState → List Char
| .state n => '\t' :: n ++ ['\n']
| .acceptState n =>
  '\t' :: 'f' :: 'i' :: 'n' :: 'a' :: 'l' :: ':' :: ' ' :: n ++ ['\n']

/-- One rendered transition line: `TAB symbol: start -> end NL`. -/
def renderTransition (t : ParsedTransition) : List Char :=
  '\t' :: t.input :: ':' :: ' ' :: t.start_state ++
    ' ' :: '-' :: '>' :: ' ' :: t.end_state ++ ['\n']

/-- The rendered `states:` block. -/
def statesBlockText (ss : List ParsedState) : List Char :=
  's' :: 't' :: 'a' :: 't' :: 'e' :: 's' :: ':' :: '\n' ::
    (ss.map renderState).flatten

/-- The rendered `transitions:` block. -/
def transitionsBlockText (ts : List ParsedTransition) : List Char :=
  't' :: 'r' :: 'a' :: 'n' :: 's' :: 'i' :: 't' :: 'i' :: 'o' :: 'n' ::
    's' :: ':' :: '\n' :: (ts.map renderTransition).flatten

/-- The rendered `start:` block. -/
def startBlockText (n : List Char) : List Char :=
  's' :: 't' :: 'a' :: 'r' :: 't' :: ':' :: ' ' :: n ++ ['\n']

/-- A well-formed name: nonempty, all characters in the name class. -/
def wfName (n : List Char) : Bool := !n.isEmpty && n.all isNameChar

/-- Head condition: the list is empty or its head fails `p`. -/
def headNotB (p : Char → Bool) : List Char → Bool
| [] => true
| c :: _ => !p c

/-- The input right after a rendered block: empty or another block's
keyword. -/
def blockHeadOk (rest : List Char) : Prop :=
  rest = [] ∨ (∃ z, rest = statesBlockText [] ++ z) ∨
  (∃ z, rest = 's' :: 't' :: 'a' :: 'r' :: 't' :: ':' :: z) ∨
  (∃ z, rest = transitionsBlockText [] ++ z)

theorem nameChar_not_blank {c : Char} (h : isNameChar c = true) :
    isBlankChar c = false := by
  rcases hb : isBlankChar c with _ | _
  · rfl
  · exfalso
    simp only [isBlankChar] at hb
    simp only [isNameChar] at h
    rcases Bool.or_eq_true_iff.mp hb with h2 | h2 <;> simp [h2] at h

theorem takeWhile_append_of (p : Char → Bool) (n rest : List Char)
    (hall : ∀ c ∈ n, p c = true) (hrest : headNotB p rest = true) :
    (n ++ rest).takeWhile p = n ∧ (n ++ rest).dropWhile p = rest := by
  induction n with
  | nil =>
    rcases rest with _ | ⟨c, l⟩
    · exact ⟨rfl, rfl⟩
    · simp only [headNotB, Bool.not_eq_true'] at hrest
      simp [List.takeWhile_cons, List.dropWhile_cons, hrest]
  | cons c nn ih =>
    have hc : p c = true := hall c (by simp)
    obtain ⟨h1, h2⟩ := ih (fun c2 hc2 => hall c2 (by simp [hc2]))
    simp [List.takeWhile_cons, List.dropWhile_cons, hc, h1, h2]

theorem wfName_ne_nil {n : List Char} (hwf : wfName n = true) : n ≠ [] := by
  simp only [wfName, Bool.and_eq_true] at hwf
  simpa using hwf.1

theorem wfName_all {n : List Char} (hwf : wfName n = true) :
    ∀ c ∈ n, isNameChar c = true := by
  simp only [wfName, Bool.and_eq_true, List.all_eq_true] at hwf
  exact hwf.2

theorem stateNameP_spec (n rest : List Char) (hwf : wfName n = true)
    (hrest : headNotB isNameChar rest = true) :
    stateNameP (n ++ rest) = some (rest, n) := by
  obtain ⟨h1, h2⟩ :=
    takeWhile_append_of isNameChar n rest (wfName_all hwf) hrest
  obtain ⟨c, nn, rfl⟩ := List.exists_cons_of_ne_nil (wfName_ne_nil hwf)
  simp only [stateNameP, h1, h2]

theorem tagP_self (t : List Char) :
    ∀ (X : List Char), tagP t (t ++ X) = some (X, ()) := by
  induction t with
  | nil => intro X; rfl
  | cons c ts ih =>
    intro X
    simp [tagP, ih]

theorem tagP_none_of_name (t : List Char) :
    ':' ∈ t → '\n' ∉ t → ∀ (n rest : List Char),
    (∀ c ∈ n, isNameChar c = true) → tagP t (n ++ '\n' :: rest) = none := by
  induction t with
  | nil =>
    intro hc
    simp at hc
  | cons tc tt ih =>
    intro hc hnl n rest hall
    rcases n with _ | ⟨c, nn⟩
    · have htc : tc ≠ '\n' := fun he => hnl (by simp [he])
      simp only [List.nil_append, tagP]
      rw [if_neg (by simpa using htc)]
    · have hcnm : isNameChar c = true := hall c (by simp)
      simp only [List.cons_append, tagP]
      rcases heq : (tc == c) with _ | _
      · rw [if_neg Bool.false_ne_true]
      · rw [if_pos rfl]
        have htc : tc = c := beq_iff_eq.mp heq
        have hc2 : ':' ∈ tt := by
          rcases List.mem_cons.mp hc with h | h
          · exfalso
            subst htc
            rw [← h] at hcnm
            simp [isNameChar] at hcnm
          · exact h
        exact ih hc2 (fun h => hnl (by simp [h])) nn rest
          (fun c2 h2 => hall c2 (by simp [h2]))

theorem dropWhile_stop (p : Char → Bool) (l : List Char)
    (h : headNotB p l = true) : l.dropWhile p = l := by
  rcases l with _ | ⟨c, t⟩
  · rfl
  · simp only [headNotB, Bool.not_eq_true'] at h
    simp [List.dropWhile_cons, h]

theorem dropWhile_line_nl (rest : List Char)
    (h : headNotB isLineChar rest = true) :
    ('\n' :: rest).dropWhile isLineChar = rest := by
  rw [List.dropWhile_cons, if_pos (by rfl)]
  exact dropWhile_stop _ _ h

theorem dropWhile_blank_one (rest : List Char)
    (h : headNotB isBlankChar rest = true) :
    (' ' :: rest).dropWhile isBlankChar = rest := by
  rw [List.dropWhile_cons, if_pos (by rfl)]
  exact dropWhile_stop _ _ h

theorem wfName_head_not_blank {n : List Char} (hwf : wfName n = true) :
    headNotB isBlankChar n = true := by
  obtain ⟨c, nn, rfl⟩ := List.exists_cons_of_ne_nil (wfName_ne_nil hwf)
  have hc : isNameChar c = true := wfName_all hwf c (by simp)
  simp [headNotB, nameChar_not_blank hc]

theorem blockHeadOk_not_line {rest : List Char} (h : blockHeadOk rest) :
    headNotB isLineChar rest = true := by
  rcases h with h | ⟨z, h⟩ | ⟨z, h⟩ | ⟨z, h⟩ <;> subst h <;> rfl

theorem stateP_none_of_blockHead {rest : List Char} (h : blockHeadOk rest) :
    stateP rest = none := by
  rcases h with h | ⟨z, h⟩ | ⟨z, h⟩ | ⟨z, h⟩ <;> subst h <;> rfl

theorem transitionP_none_of_blockHead {rest : List Char}
    (h : blockHeadOk rest) : transitionP rest = none := by
  rcases h with h | ⟨z, h⟩ | ⟨z, h⟩ | ⟨z, h⟩ <;> subst h <;> rfl

theorem startBlockP_on_states (ss : List ParsedState) (z : List Char) :
    startBlockP (statesBlockText ss ++ z) = none := rfl

theorem startBlockP_on_trans (ts : List ParsedTransition) (z : List Char) :
    startBlockP (transitionsBlockText ts ++ z) = none := rfl

theorem stateBlockP_on_start (n z : List Char) :
    stateBlockP (startBlockText n ++ z) = none := rfl

theorem stateBlockP_on_trans (ts : List ParsedTransition) (z : List Char) :
    stateBlockP (transitionsBlockText ts ++ z) = none := rfl

theorem transBlockP_on_states (ss : List ParsedState) (z : List Char) :
    transitionsBlockP (statesBlockText ss ++ z) = none := rfl

theorem transBlockP_on_start (n z : List Char) :
    transitionsBlockP (startBlockText n ++ z) = none := rfl

theorem startBlockP_nl (i : List Char) :
    startBlockP ('\n' :: i) = startBlockP i := rfl

theorem stateBlockP_nl (i : List Char) :
    stateBlockP ('\n' :: i) = stateBlockP i := rfl

theorem transBlockP_nl (i : List Char) :
    transitionsBlockP ('\n' :: i) = transitionsBlockP i := rfl

theorem wfName_append_head_not_blank {n : List Char} (hwf : wfName n = true)
    (X : List Char) : headNotB isBlankChar (n ++ X) = true := by
  obtain ⟨c, nn, rfl⟩ := List.exists_cons_of_ne_nil (wfName_ne_nil hwf)
  have hc : isNameChar c = true := wfName_all hwf c (by simp)
  simp [headNotB, nameChar_not_blank hc]

theorem stateP_render_plain (n rest : List Char) (hwf : wfName n = true)
    (hrest : headNotB isLineChar rest = true) :
    stateP (renderState (ParsedState.state n) ++ rest) =
      some (rest, ParsedState.state n) := by
  have hassoc : renderState (ParsedState.state n) ++ rest =
      '\t' :: (n ++ '\n' :: rest) := by
    simp [renderState]
  have htag : tagP (chars "final:") (n ++ '\n' :: rest) = none :=
    tagP_none_of_name (chars "final:") (by decide) (by decide) n rest
      (wfName_all hwf)
  have hname : stateNameP (n ++ '\n' :: rest) = some ('\n' :: rest, n) :=
    stateNameP_spec n ('\n' :: rest) hwf rfl
  have hline : lineP ('\n' :: rest) = some (rest, ()) := by
    simp only [lineP, dropWhile_line_nl rest hrest]
  rw [hassoc]
  simp only [stateP, charP, beq_self_eq_true, if_true, Option.bind_eq_bind,
    Option.some_bind, htag, hname, hline]

theorem stateP_render_accept (n rest : List Char) (hwf : wfName n = true)
    (hrest : headNotB isLineChar rest = true) :
    stateP (renderState (ParsedState.acceptState n) ++ rest) =
      some (rest, ParsedState.acceptState n) := by
  have hassoc : renderState (ParsedState.acceptState n) ++ rest =
      '\t' :: (chars "final:" ++ (' ' :: (n ++ '\n' :: rest))) := by
    have h : chars "final:" = ['f', 'i', 'n', 'a', 'l', ':'] := rfl
    rw [h]
    simp [renderState]
  have htag : tagP (chars "final:")
      (chars "final:" ++ (' ' :: (n ++ '\n' :: rest))) =
      some ((' ' :: (n ++ '\n' :: rest)), ()) := tagP_self _ _
  have hblank : blankSpaceP (' ' :: (n ++ '\n' :: rest)) =
      some (n ++ '\n' :: rest, ()) := by
    simp only [blankSpaceP,
      dropWhile_blank_one _ (wfName_append_head_not_blank hwf _)]
  have hname : stateNameP (n ++ '\n' :: rest) = some ('\n' :: rest, n) :=
    stateNameP_spec n ('\n' :: rest) hwf rfl
  have hline : lineP ('\n' :: rest) = some (rest, ()) := by
    simp only [lineP, dropWhile_line_nl rest hrest]
  rw [hassoc]
  simp only [stateP, charP, beq_self_eq_true, if_true, Option.bind_eq_bind,
    Option.some_bind, htag, hblank, hname, hline]

theorem renders_head_not_line (ss : List ParsedState) (rest : List Char)
    (h : blockHeadOk rest) :
    headNotB isLineChar ((ss.map renderState).flatten ++ rest) = true := by
  rcases ss with _ | ⟨s, ss'⟩
  · exact blockHeadOk_not_line h
  · rcases s with n | n <;> rfl

theorem many0StateP_spec (ss : List ParsedState) :
    ∀ (fuel : Nat) (rest : List Char), ss.length ≤ fuel →
    (∀ s ∈ ss, wfName s.pname = true) → blockHeadOk rest →
    many0StateP fuel ((ss.map renderState).flatten ++ rest) = (rest, ss) := by
  induction ss with
  | nil =>
    intro fuel rest _ _ hrest
    rcases fuel with _ | f
    · rfl
    · show many0StateP (f + 1) ([] ++ rest) = (rest, [])
      simp only [List.nil_append, many0StateP, stateP_none_of_blockHead hrest]
  | cons s ss' ih =>
    intro fuel rest hfuel hwf hrest
    rcases fuel with _ | f
    · exact absurd hfuel (by simp)
    · have hflat : (((s :: ss').map renderState).flatten) ++ rest =
          renderState s ++ ((ss'.map renderState).flatten ++ rest) := by
        simp
      rw [hflat]
      have hhd : headNotB isLineChar
          ((ss'.map renderState).flatten ++ rest) = true :=
        renders_head_not_line ss' rest hrest
      have hsp : stateP (renderState s ++
          ((ss'.map renderState).flatten ++ rest)) =
          some ((ss'.map renderState).flatten ++ rest, s) := by
        rcases s with n | n
        · exact stateP_render_plain n _
            (hwf (ParsedState.state n) (by simp)) hhd
        · exact stateP_render_accept n _
            (hwf (ParsedState.acceptState n) (by simp)) hhd
      simp only [many0StateP, hsp]
      rw [ih f rest (by simpa using hfuel)
        (fun s2 h2 => hwf s2 (by simp [h2])) hrest]

theorem length_le_renders (ss : List ParsedState) :
    ss.length ≤ ((ss.map renderState).flatten).length := by
  induction ss with
  | nil => simp
  | cons s ss' ih =>
    have h1 : 1 ≤ (renderState s).length := by
      rcases s with n | n <;> simp [renderState]
    simp only [List.map_cons, List.flatten_cons, List.length_append,
      List.length_cons]
    omega

theorem stateBlockP_render (ss : List ParsedState) (rest : List Char)
    (hss : ∀ s ∈ ss, wfName s.pname = true) (hrest : blockHeadOk rest) :
    stateBlockP (statesBlockText ss ++ rest) = some (rest, ss) := by
  have hassoc : statesBlockText ss ++ rest =
      chars "states:" ++ ('\n' :: ((ss.map renderState).flatten ++ rest)) := by
    have h : chars "states:" = ['s', 't', 'a', 't', 'e', 's', ':'] := rfl
    rw [h]
    simp [statesBlockText]
  have htag : tagP (chars "states:")
      (chars "states:" ++ ('\n' :: ((ss.map renderState).flatten ++ rest))) =
      some ('\n' :: ((ss.map renderState).flatten ++ rest), ()) := tagP_self _ _
  have hline2 : lineP ('\n' :: ((ss.map renderState).flatten ++ rest)) =
      some ((ss.map renderState).flatten ++ rest, ()) := by
    simp only [lineP,
      dropWhile_line_nl _ (renders_head_not_line ss rest hrest)]
  have hline1 : lineP (chars "states:" ++
      ('\n' :: ((ss.map renderState).flatten ++ rest))) =
      some (chars "states:" ++
        ('\n' :: ((ss.map renderState).flatten ++ rest)), ()) := rfl
  have hmany : many0StateP
      (((ss.map renderState).flatten ++ rest).length + 1)
      ((ss.map renderState).flatten ++ rest) = (rest, ss) := by
    apply many0StateP_spec ss _ rest _ hss hrest
    have h2 := length_le_renders ss
    simp only [List.length_append]
    omega
  rw [hassoc]
  simp only [stateBlockP, hline1, Option.bind_eq_bind, Option.some_bind,
    htag, hline2, hmany]

/-- The well-formedness of one declared transition for rendering: symbol in
the symbol class, both names well formed. -/
def wfTrans (t : ParsedTransition) : Prop :=
  isNameChar t.input = true ∧ wfName t.start_state = true ∧
    wfName t.end_state = true

instance (t : ParsedTransition) : Decidable (wfTrans t) := by
  unfold wfTrans
  infer_instance

theorem transitionP_render (t : ParsedTransition) (rest : List Char)
    (hwt : wfTrans t) (hrest : headNotB isLineChar rest = true) :
    transitionP (renderTransition t ++ rest) = some (rest, t) := by
  obtain ⟨hin, hs, he⟩ := hwt
  have hassoc : renderTransition t ++ rest =
      '\t' :: t.input :: ':' :: ' ' :: (t.start_state ++
        (' ' :: (chars "->" ++ (' ' :: (t.end_state ++ '\n' :: rest))))) := by
    have h : chars "->" = ['-', '>'] := rfl
    rw [h]
    simp [renderTransition]
  have h1 : ('\t' :: t.input :: ':' :: ' ' :: (t.start_state ++
      (' ' :: (chars "->" ++ (' ' :: (t.end_state ++ '\n' :: rest)))))
      ).dropWhile isBlankChar =
      t.input :: ':' :: ' ' :: (t.start_state ++
        (' ' :: (chars "->" ++ (' ' :: (t.end_state ++ '\n' :: rest))))) := by
    rw [List.dropWhile_cons, if_pos (by rfl)]
    exact dropWhile_stop _ _ (by simp [headNotB, nameChar_not_blank hin])
  have h2 : (' ' :: (t.start_state ++
      (' ' :: (chars "->" ++ (' ' :: (t.end_state ++ '\n' :: rest)))))
      ).dropWhile isBlankChar =
      t.start_state ++
        (' ' :: (chars "->" ++ (' ' :: (t.end_state ++ '\n' :: rest)))) :=
    dropWhile_blank_one _ (wfName_append_head_not_blank hs _)
  have h3 : stateNameP (t.start_state ++
      (' ' :: (chars "->" ++ (' ' :: (t.end_state ++ '\n' :: rest))))) =
      some (' ' :: (chars "->" ++ (' ' :: (t.end_state ++ '\n' :: rest))),
        t.start_state) :=
    stateNameP_spec _ _ hs rfl
  have h4 : (' ' :: (chars "->" ++ (' ' :: (t.end_state ++ '\n' :: rest)))
      ).dropWhile isBlankChar =
      chars "->" ++ (' ' :: (t.end_state ++ '\n' :: rest)) :=
    dropWhile_blank_one _ rfl
  have h5 : tagP (chars "->")
      (chars "->" ++ (' ' :: (t.end_state ++ '\n' :: rest))) =
      some (' ' :: (t.end_state ++ '\n' :: rest), ()) := tagP_self _ _
  have h6 : (' ' :: (t.end_state ++ '\n' :: rest)).dropWhile isBlankChar =
      t.end_state ++ '\n' :: rest :=
    dropWhile_blank_one _ (wfName_append_head_not_blank he _)
  have h7 : stateNameP (t.end_state ++ '\n' :: rest) =
      some ('\n' :: rest, t.end_state) :=
    stateNameP_spec _ _ he rfl
  have h8 : lineP ('\n' :: rest) = some (rest, ()) := by
    simp only [lineP, dropWhile_line_nl rest hrest]
  rw [hassoc]
  simp only [transitionP, inputCharP, blankSpaceP, h1, noneOfNameP, hin,
    if_true, charP, beq_self_eq_true, h2, h3, h4, h5, h6, h7, h8,
    Option.bind_eq_bind, Option.some_bind]

theorem transRenders_head_not_line (ts : List ParsedTransition)
    (rest : List Char) (h : blockHeadOk rest) :
    headNotB isLineChar ((ts.map renderTransition).flatten ++ rest) = true := by
  rcases ts with _ | ⟨t, ts'⟩
  · exact blockHeadOk_not_line h
  · rfl

theorem many0TransP_spec (ts : List ParsedTransition) :
    ∀ (fuel : Nat) (rest : List Char), ts.length ≤ fuel →
    (∀ t ∈ ts, wfTrans t) → blockHeadOk rest →
    many0TransP fuel ((ts.map renderTransition).flatten ++ rest) =
      (rest, ts) := by
  induction ts with
  | nil =>
    intro fuel rest _ _ hrest
    rcases fuel with _ | f
    · rfl
    · show many0TransP (f + 1) ([] ++ rest) = (rest, [])
      simp only [List.nil_append, many0TransP,
        transitionP_none_of_blockHead hrest]
  | cons t ts' ih =>
    intro fuel rest hfuel hwf hrest
    rcases fuel with _ | f
    · exact absurd hfuel (by simp)
    · have hflat : (((t :: ts').map renderTransition).flatten) ++ rest =
          renderTransition t ++
            ((ts'.map renderTransition).flatten ++ rest) := by
        simp
      rw [hflat]
      have htp : transitionP (renderTransition t ++
          ((ts'.map renderTransition).flatten ++ rest)) =
          some ((ts'.map renderTransition).flatten ++ rest, t) :=
        transitionP_render t _ (hwf t (by simp))
          (transRenders_head_not_line ts' rest hrest)
      simp only [many0TransP, htp]
      rw [ih f rest (by simpa using hfuel)
        (fun t2 h2 => hwf t2 (by simp [h2])) hrest]

theorem length_le_transRenders (ts : List ParsedTransition) :
    ts.length ≤ ((ts.map renderTransition).flatten).length := by
  induction ts with
  | nil => simp
  | cons t ts' ih =>
    have h1 : 1 ≤ (renderTransition t).length := by
      simp [renderTransition]
    simp only [List.map_cons, List.flatten_cons, List.length_append,
      List.length_cons]
    omega

theorem transitionsBlockP_render (ts : List ParsedTransition)
    (rest : List Char) (hne : ts ≠ []) (hts : ∀ t ∈ ts, wfTrans t)
    (hrest : blockHeadOk rest) :
    transitionsBlockP (transitionsBlockText ts ++ rest) = some (rest, ts) := by
  obtain ⟨t, ts', rfl⟩ := List.exists_cons_of_ne_nil hne
  have hassoc : transitionsBlockText (t :: ts') ++ rest =
      chars "transitions:" ++
        ('\n' :: (renderTransition t ++
          ((ts'.map renderTransition).flatten ++ rest))) := by
    have h : chars "transitions:" =
        ['t', 'r', 'a', 'n', 's', 'i', 't', 'i', 'o', 'n', 's', ':'] := rfl
    rw [h]
    simp [transitionsBlockText]
  have htag : tagP (chars "transitions:")
      (chars "transitions:" ++ ('\n' :: (renderTransition t ++
        ((ts'.map renderTransition).flatten ++ rest)))) =
      some ('\n' :: (renderTransition t ++
        ((ts'.map renderTransition).flatten ++ rest)), ()) := tagP_self _ _
  have hhd : headNotB isLineChar (renderTransition t ++
      ((ts'.map renderTransition).flatten ++ rest)) = true := rfl
  have hline2 : lineP ('\n' :: (renderTransition t ++
      ((ts'.map renderTransition).flatten ++ rest))) =
      some (renderTransition t ++
        ((ts'.map renderTransition).flatten ++ rest), ()) := by
    simp only [lineP, dropWhile_line_nl _ hhd]
  have htp : transitionP (renderTransition t ++
      ((ts'.map renderTransition).flatten ++ rest)) =
      some ((ts'.map renderTransition).flatten ++ rest, t) :=
    transitionP_render t _ (hts t (by simp))
      (transRenders_head_not_line ts' rest hrest)
  have hmany : many0TransP
      (((ts'.map renderTransition).flatten ++ rest).length + 1)
      ((ts'.map renderTransition).flatten ++ rest) = (rest, ts') := by
    apply many0TransP_spec ts' _ rest _
      (fun t2 h2 => hts t2 (by simp [h2])) hrest
    have h2 := length_le_transRenders ts'
    simp only [List.length_append]
    omega
  have hline1 : lineP (chars "transitions:" ++
      ('\n' :: (renderTransition t ++
        ((ts'.map renderTransition).flatten ++ rest)))) =
      some (chars "transitions:" ++ ('\n' :: (renderTransition t ++
        ((ts'.map renderTransition).flatten ++ rest))), ()) := by
    simp only [lineP]
    rw [dropWhile_stop _ _ (by rfl)]
  rw [hassoc]
  simp only [transitionsBlockP, hline1, htag, hline2, htp, hmany,
    Option.bind_eq_bind, Option.some_bind]

theorem startBlockP_render (n z : List Char) (hwf : wfName n = true) :
    startBlockP (startBlockText n ++ z) = some ('\n' :: z, n) := by
  have hassoc : startBlockText n ++ z =
      chars "start:" ++ (' ' :: (n ++ '\n' :: z)) := by
    have h : chars "start:" = ['s', 't', 'a', 'r', 't', ':'] := rfl
    rw [h]
    simp [startBlockText]
  have htag : tagP (chars "start:")
      (chars "start:" ++ (' ' :: (n ++ '\n' :: z))) =
      some (' ' :: (n ++ '\n' :: z), ()) := tagP_self _ _
  have hblank : (' ' :: (n ++ '\n' :: z)).dropWhile isBlankChar =
      n ++ '\n' :: z :=
    dropWhile_blank_one _ (wfName_append_head_not_blank hwf _)
  have hname : stateNameP (n ++ '\n' :: z) = some ('\n' :: z, n) :=
    stateNameP_spec _ _ hwf rfl
  have hline1 : lineP (chars "start:" ++ (' ' :: (n ++ '\n' :: z))) =
      some (chars "start:" ++ (' ' :: (n ++ '\n' :: z)), ()) := by
    simp only [lineP]
    rw [dropWhile_stop _ _ (by rfl)]
  rw [hassoc]
  simp only [startBlockP, hline1, htag, blankSpaceP, hblank, hname,
    Option.bind_eq_bind, Option.some_bind]

theorem startBlockP_render_nil (n : List Char) (hwf : wfName n = true) :
    startBlockP (startBlockText n) = some (['\n'], n) := by
  have h := startBlockP_render n [] hwf
  rwa [List.append_nil] at h

theorem stateBlockP_render_nil (ss : List ParsedState)
    (hss : ∀ s ∈ ss, wfName s.pname = true) :
    stateBlockP (statesBlockText ss) = some ([], ss) := by
  have h := stateBlockP_render ss [] hss (Or.inl rfl)
  rwa [List.append_nil] at h

theorem transitionsBlockP_render_nil (ts : List ParsedTransition)
    (hne : ts ≠ []) (hts : ∀ t ∈ ts, wfTrans t) :
    transitionsBlockP (transitionsBlockText ts) = some ([], ts) := by
  have h := transitionsBlockP_render ts [] hne hts (Or.inl rfl)
  rwa [List.append_nil] at h

theorem startBlockP_head_t (w : List Char) : startBlockP ('t' :: w) = none :=
  rfl

theorem startBlockP_head_stat (w : List Char) :
    startBlockP ('s' :: 't' :: 'a' :: 't' :: w) = none := rfl

theorem stateBlockP_head_star (w : List Char) :
    stateBlockP ('s' :: 't' :: 'a' :: 'r' :: w) = none := rfl

theorem stateBlockP_head_t (w : List Char) : stateBlockP ('t' :: w) = none :=
  rfl

theorem transBlockP_head_s (w : List Char) :
    transitionsBlockP ('s' :: w) = none := rfl

theorem blockHeadOk_states (ss : List ParsedState) (z : List Char) :
    blockHeadOk (statesBlockText ss ++ z) :=
  Or.inr (Or.inl ⟨(ss.map renderState).flatten ++ z, rfl⟩)

theorem blockHeadOk_states_nil (ss : List ParsedState) :
    blockHeadOk (statesBlockText ss) :=
  Or.inr (Or.inl ⟨(ss.map renderState).flatten, rfl⟩)

theorem blockHeadOk_start (n z : List Char) :
    blockHeadOk (startBlockText n ++ z) :=
  Or.inr (Or.inr (Or.inl ⟨' ' :: ((n ++ ['\n']) ++ z), rfl⟩))

theorem blockHeadOk_start_nil (n : List Char) :
    blockHeadOk (startBlockText n) :=
  Or.inr (Or.inr (Or.inl ⟨' ' :: (n ++ ['\n']), rfl⟩))

theorem blockHeadOk_trans (ts : List ParsedTransition) (z : List Char) :
    blockHeadOk (transitionsBlockText ts ++ z) :=
  Or.inr (Or.inr (Or.inr ⟨(ts.map renderTransition).flatten ++ z, rfl⟩))

theorem blockHeadOk_trans_nil (ts : List ParsedTransition) :
    blockHeadOk (transitionsBlockText ts) :=
  Or.inr (Or.inr (Or.inr ⟨(ts.map renderTransition).flatten, rfl⟩))

theorem definitionP_ord123 (n : List Char) (ss : List ParsedState)
    (ts : List ParsedTransition) (hn : wfName n = true)
    (hss : ∀ s ∈ ss, wfName s.pname = true) (hne : ts ≠ [])
    (hts : ∀ t ∈ ts, wfTrans t) :
    definitionP (startBlockText n ++ (statesBlockText ss ++
      transitionsBlockText ts)) = some ([], ⟨n, ss, ts⟩) := by
  have e1 : startBlockP (startBlockText n ++
      (statesBlockText ss ++ transitionsBlockText ts)) =
      some ('\n' :: (statesBlockText ss ++ transitionsBlockText ts), n) :=
    startBlockP_render n _ hn
  have e2 : stateBlockP ('\n' ::
      (statesBlockText ss ++ transitionsBlockText ts)) =
      some (transitionsBlockText ts, ss) := by
    rw [stateBlockP_nl]
    exact stateBlockP_render ss _ hss (blockHeadOk_trans_nil ts)
  have e3 : transitionsBlockP (transitionsBlockText ts) = some ([], ts) :=
    transitionsBlockP_render_nil ts hne hts
  simp only [definitionP, permLoop, permTry, e1, e2, e3]

theorem definitionP_ord132 (n : List Char) (ss : List ParsedState)
    (ts : List ParsedTransition) (hn : wfName n = true)
    (hss : ∀ s ∈ ss, wfName s.pname = true) (hne : ts ≠ [])
    (hts : ∀ t ∈ ts, wfTrans t) :
    definitionP (startBlockText n ++ (transitionsBlockText ts ++
      statesBlockText ss)) = some ([], ⟨n, ss, ts⟩) := by
  have e1 : startBlockP (startBlockText n ++
      (transitionsBlockText ts ++ statesBlockText ss)) =
      some ('\n' :: (transitionsBlockText ts ++ statesBlockText ss), n) :=
    startBlockP_render n _ hn
  have e2a : stateBlockP ('\n' ::
      (transitionsBlockText ts ++ statesBlockText ss)) = none := by
    rw [stateBlockP_nl]
    exact stateBlockP_head_t _
  have e2b : transitionsBlockP ('\n' ::
      (transitionsBlockText ts ++ statesBlockText ss)) =
      some (statesBlockText ss, ts) := by
    rw [transBlockP_nl]
    exact transitionsBlockP_render ts _ hne hts (blockHeadOk_states_nil ss)
  have e3 : stateBlockP (statesBlockText ss) = some ([], ss) :=
    stateBlockP_render_nil ss hss
  simp only [definitionP, permLoop, permTry, e1, e2a, e2b, e3]

theorem definitionP_ord213 (n : List Char) (ss : List ParsedState)
    (ts : List ParsedTransition) (hn : wfName n = true)
    (hss : ∀ s ∈ ss, wfName s.pname = true) (hne : ts ≠ [])
    (hts : ∀ t ∈ ts, wfTrans t) :
    definitionP (statesBlockText ss ++ (startBlockText n ++
      transitionsBlockText ts)) = some ([], ⟨n, ss, ts⟩) := by
  have e1a : startBlockP (statesBlockText ss ++
      (startBlockText n ++ transitionsBlockText ts)) = none :=
    startBlockP_head_stat _
  have e1b : stateBlockP (statesBlockText ss ++
      (startBlockText n ++ transitionsBlockText ts)) =
      some (startBlockText n ++ transitionsBlockText ts, ss) :=
    stateBlockP_render ss _ hss (blockHeadOk_start n _)
  have e2 : startBlockP (startBlockText n ++ transitionsBlockText ts) =
      some ('\n' :: transitionsBlockText ts, n) :=
    startBlockP_render n _ hn
  have e3 : transitionsBlockP ('\n' :: transitionsBlockText ts) =
      some ([], ts) := by
    rw [transBlockP_nl]
    exact transitionsBlockP_render_nil ts hne hts
  simp only [definitionP, permLoop, permTry, e1a, e1b, e2, e3]

theorem definitionP_ord231 (n : List Char) (ss : List ParsedState)
    (ts : List ParsedTransition) (hn : wfName n = true)
    (hss : ∀ s ∈ ss, wfName s.pname = true) (hne : ts ≠ [])
    (hts : ∀ t ∈ ts, wfTrans t) :
    definitionP (statesBlockText ss ++ (transitionsBlockText ts ++
      startBlockText n)) = some (['\n'], ⟨n, ss, ts⟩) := by
  have e1a : startBlockP (statesBlockText ss ++
      (transitionsBlockText ts ++ startBlockText n)) = none :=
    startBlockP_head_stat _
  have e1b : stateBlockP (statesBlockText ss ++
      (transitionsBlockText ts ++ startBlockText n)) =
      some (transitionsBlockText ts ++ startBlockText n, ss) :=
    stateBlockP_render ss _ hss (blockHeadOk_trans ts _)
  have e2a : startBlockP (transitionsBlockText ts ++ startBlockText n) =
      none := startBlockP_head_t _
  have e2b : transitionsBlockP (transitionsBlockText ts ++
      startBlockText n) = some (startBlockText n, ts) :=
    transitionsBlockP_render ts _ hne hts (blockHeadOk_start_nil n)
  have e3 : startBlockP (startBlockText n) = some (['\n'], n) :=
    startBlockP_render_nil n hn
  simp only [definitionP, permLoop, permTry, e1a, e1b, e2a, e2b, e3]

theorem definitionP_ord312 (n : List Char) (ss : List ParsedState)
    (ts : List ParsedTransition) (hn : wfName n = true)
    (hss : ∀ s ∈ ss, wfName s.pname = true) (hne : ts ≠ [])
    (hts : ∀ t ∈ ts, wfTrans t) :
    definitionP (transitionsBlockText ts ++ (startBlockText n ++
      statesBlockText ss)) = some ([], ⟨n, ss, ts⟩) := by
  have e1a : startBlockP (transitionsBlockText ts ++
      (startBlockText n ++ statesBlockText ss)) = none :=
    startBlockP_head_t _
  have e1b : stateBlockP (transitionsBlockText ts ++
      (startBlockText n ++ statesBlockText ss)) = none :=
    stateBlockP_head_t _
  have e1c : transitionsBlockP (transitionsBlockText ts ++
      (startBlockText n ++ statesBlockText ss)) =
      some (startBlockText n ++ statesBlockText ss, ts) :=
    transitionsBlockP_render ts _ hne hts (blockHeadOk_start n _)
  have e2 : startBlockP (startBlockText n ++ statesBlockText ss) =
      some ('\n' :: statesBlockText ss, n) :=
    startBlockP_render n _ hn
  have e3 : stateBlockP ('\n' :: statesBlockText ss) = some ([], ss) := by
    rw [stateBlockP_nl]
    exact stateBlockP_render_nil ss hss
  simp only [definitionP, permLoop, permTry, e1a, e1b, e1c, e2, e3]

theorem definitionP_ord321 (n : List Char) (ss : List ParsedState)
    (ts : List ParsedTransition) (hn : wfName n = true)
    (hss : ∀ s ∈ ss, wfName s.pname = true) (hne : ts ≠ [])
    (hts : ∀ t ∈ ts, wfTrans t) :
    definitionP (transitionsBlockText ts ++ (statesBlockText ss ++
      startBlockText n)) = some (['\n'], ⟨n, ss, ts⟩) := by
  have e1a : startBlockP (transitionsBlockText ts ++
      (statesBlockText ss ++ startBlockText n)) = none :=
    startBlockP_head_t _
  have e1b : stateBlockP (transitionsBlockText ts ++
      (statesBlockText ss ++ startBlockText n)) = none :=
    stateBlockP_head_t _
  have e1c : transitionsBlockP (transitionsBlockText ts ++
      (statesBlockText ss ++ startBlockText n)) =
      some (statesBlockText ss ++ startBlockText n, ts) :=
    transitionsBlockP_render ts _ hne hts (blockHeadOk_states ss _)
  have e2a : startBlockP (statesBlockText ss ++ startBlockText n) = none :=
    startBlockP_head_stat _
  have e2b : stateBlockP (statesBlockText ss ++ startBlockText n) =
      some (startBlockText n, ss) :=
    stateBlockP_render ss _ hss (blockHeadOk_start_nil n)
  have e3 : startBlockP (startBlockText n) = some (['\n'], n) :=
    startBlockP_render_nil n hn
  simp only [definitionP, permLoop, permTry, e1a, e1b, e1c, e2a, e2b, e3]

/-- C8: for every trio of well-formed rendered blocks — a `states:` block, a
`transitions:` block with at least one transition line, and a
newline-terminated `start:` line — concatenating the three blocks in any of
the six relative orders yields a text the parser accepts, and all six
orders produce the same `ParsedFSM` (same start name, same state sequence,
same transition sequence). -/
theorem c8_block_permutation (n : List Char) (ss : List ParsedState)
    (ts : List ParsedTransition) (hn : wfName n = true)
    (hss : ∀ s ∈ ss, wfName s.pname = true) (hne : ts ≠ [])
    (hts : ∀ t ∈ ts, wfTrans t) :
    (∃ r, definitionP (startBlockText n ++ (statesBlockText ss ++
      transitionsBlockText ts)) = some (r, ⟨n, ss, ts⟩)) ∧
    (∃ r, definitionP (startBlockText n ++ (transitionsBlockText ts ++
      statesBlockText ss)) = some (r, ⟨n, ss, ts⟩)) ∧
    (∃ r, definitionP (statesBlockText ss ++ (startBlockText n ++
      transitionsBlockText ts)) = some (r, ⟨n, ss, ts⟩)) ∧
    (∃ r, definitionP (statesBlockText ss ++ (transitionsBlockText ts ++
      startBlockText n)) = some (r, ⟨n, ss, ts⟩)) ∧
    (∃ r, definitionP (transitionsBlockText ts ++ (startBlockText n ++
      statesBlockText ss)) = some (r, ⟨n, ss, ts⟩)) ∧
    (∃ r, definitionP (transitionsBlockText ts ++ (statesBlockText ss ++
      startBlockText n)) = some (r, ⟨n, ss, ts⟩)) :=
  ⟨⟨[], definitionP_ord123 n ss ts hn hss hne hts⟩,
   ⟨[], definitionP_ord132 n ss ts hn hss hne hts⟩,
   ⟨[], definitionP_ord213 n ss ts hn hss hne hts⟩,
   ⟨['\n'], definitionP_ord231 n ss ts hn hss hne hts⟩,
   ⟨[], definitionP_ord312 n ss ts hn hss hne hts⟩,
   ⟨['\n'], definitionP_ord321 n ss ts hn hss hne hts⟩⟩

/-- Concrete blocks for the permutation witness. -/
def exSS : List ParsedState :=
  [ParsedState.state (chars "A"), ParsedState.acceptState (chars "B")]

/-- Concrete transitions for the permutation witness. -/
def exTS : List ParsedTransition :=
  [⟨'0', chars "A", chars "B"⟩, ⟨'0', chars "B", chars "A"⟩]

theorem c8_block_permutation_witness :
    (∃ r, definitionP (startBlockText (chars "A") ++ (statesBlockText exSS ++
      transitionsBlockText exTS)) = some (r, ⟨chars "A", exSS, exTS⟩)) ∧
    (∃ r, definitionP (transitionsBlockText exTS ++ (statesBlockText exSS ++
      startBlockText (chars "A"))) = some (r, ⟨chars "A", exSS, exTS⟩)) := by
  have h := c8_block_permutation (chars "A") exSS exTS (by decide)
    (by decide) (by decide) (by decide)
  exact ⟨h.1, h.2.2.2.2.2⟩

end Fsm
